import Mathlib

/-!
# PCON forwarding strategy (daemon/fw/pcon-strategy.cpp)

A shallow embedding of `PconStrategy` and theorems about it.

Conventions of the embedding

* C++ `double` values (shares, `percSum`, `forwPerc`, `r`) are exact rationals.
* Link identifiers (`FaceId`, an unsigned 64-bit integer declared in face.hpp) are
  natural numbers; `initializeForwMap` keeps the lowest one in a C++ `int` that
  starts at `INT_MAX`, which is kept as is.
* Time points and durations are integers (nanoseconds); the clock is read once
  per call.
* An `assert` that fails and an access the C++ standard leaves undefined end the
  call with a dedicated `Exit` value.
* Diagnostic output on `std::cout` and the share log file are not modelled.
-/

namespace Pcon

/-! ## Faces, next hops and the forwarding-share record -/

/-- Identifier of a face (`FaceId` of face.hpp). -/
abbrev FaceId := Nat

/-- Scope of a face, `ndn::nfd::FaceScope`. -/
inductive FaceScope
  | FACE_SCOPE_NON_LOCAL
  | FACE_SCOPE_LOCAL
  deriving DecidableEq, Repr

/-- The part of `Face` the strategy reads: `getId`, `getScope`, `getLocalUri`. -/
structure Face where
  id : FaceId
  scope : FaceScope
  localUri : String
  deriving DecidableEq, Repr

/-- A `fib::NextHop`; only its face is read by the strategy. -/
structure NextHop where
  face : Face
  deriving DecidableEq, Repr

/-- An interest as far as the strategy touches it: the name and the nonce. -/
structure Interest where
  name : String
  nonce : Nat
  deriving DecidableEq, Repr

/-- Modelled from the spec: `MtForwardingInfo` (mt-forwarding-info.hpp), the
forwarding-share record, "a mapping from link-id to a real-valued forwarding
share". The map is kept as an association list with one entry per link-id. -/
structure MtForwardingInfo where
  forwPercMap : List (FaceId × ℚ)
  deriving DecidableEq, Repr

/-- Share stored for `id` in an association list, `0` when there is none. -/
def lookupPerc : List (FaceId × ℚ) → FaceId → ℚ
  | [], _ => 0
  | (k, v) :: rest, id => if k = id then v else lookupPerc rest id

/-- Association list with the share of `id` set to `perc`. -/
def storePerc : List (FaceId × ℚ) → FaceId → ℚ → List (FaceId × ℚ)
  | [], id, perc => [(id, perc)]
  | (k, v) :: rest, id, perc =>
    if k = id then (k, perc) :: rest else (k, v) :: storePerc rest id perc

/-- Modelled from the spec: `MtForwardingInfo::getforwPerc`, the share the record
holds for a link-id (a link-id without an entry has share `0`). -/
def MtForwardingInfo.getforwPerc (info : MtForwardingInfo) (id : FaceId) : ℚ :=
  lookupPerc info.forwPercMap id

/-- Modelled from the spec: `MtForwardingInfo::setforwPerc`, which stores a share
for a link-id, replacing the one held before. -/
def MtForwardingInfo.setforwPerc (info : MtForwardingInfo) (id : FaceId) (perc : ℚ) :
    MtForwardingInfo :=
  ⟨storePerc info.forwPercMap id perc⟩

/-- Modelled from the spec: `MtForwardingInfo::getFaceCount`, the number of links
the record holds. -/
def MtForwardingInfo.getFaceCount (info : MtForwardingInfo) : Nat :=
  info.forwPercMap.length

/-- Modelled from the spec: `MtForwardingInfo::inheritFrom`, by which a new record
copies the shares of its parent record. -/
def MtForwardingInfo.inheritFrom (_info parentInfo : MtForwardingInfo) : MtForwardingInfo :=
  ⟨parentInfo.forwPercMap⟩

/-- Modelled from the spec: `StrHelper::reduceFwPerc` (str-helper.hpp), which
lowers the share of one link by `change`: "new_share = old_share - (decay_rate *
old_share)", and "shares are not redistributed to other links explicitly". -/
def reduceFwPerc (info : MtForwardingInfo) (id : FaceId) (change : ℚ) : MtForwardingInfo :=
  info.setforwPerc id (info.getforwPerc id - change)

/-! ## The strategy object -/

/-- Data members of `PconStrategy` that the modelled functions read or write. -/
structure PconStrategy where
  INIT_SHORTEST_PATH : Bool
  CHANGE_PER_MARK : ℚ
  PROBING_PERCENTAGE : ℚ
  m_nonce : Nat
  m_lastFWWrite : Int
  deriving DecidableEq, Repr

/-- Value of `std::numeric_limits<int>::max()`. -/
def INT_MAX : Nat := 2147483647

/-- Value of `RAND_MAX` of the C library (glibc). -/
def RAND_MAX : Nat := 2147483647

/-- Number of values of the nonce counter `m_nonce` (a 32-bit nonce). -/
def NONCE_RANGE : Nat := 4294967296

/-- Value of `TIME_BETWEEN_FW_WRITE`, 20 ms in nanoseconds. -/
def TIME_BETWEEN_FW_WRITE : Int := 20000000

/-- Strategy object as the constructor leaves it when the three environment
variables are unset (lines 39-66); `m_lastFWWrite` is written as `0` for
`TimePoint::min()`. -/
def PconStrategy.default : PconStrategy :=
  { INIT_SHORTEST_PATH := true
    CHANGE_PER_MARK := 2 / 100
    PROBING_PERCENTAGE := 1 / 1000
    m_nonce := 0
    m_lastFWWrite := 0 }

/-! ## initializeForwMap (lines 379-416) -/

/-- First loop of `initializeForwMap` (lines 383-393): the pair
`(lowestId, localFaceCount)` after the next hops have been scanned. -/
def scanNextHops (nexthops : List NextHop) : Nat × Nat :=
  nexthops.foldl
    (fun acc n =>
      let localFaceCount :=
        if n.face.scope = FaceScope.FACE_SCOPE_LOCAL then acc.2 + 1 else acc.2
      let lowestId := if n.face.id < acc.1 then n.face.id else acc.1
      (lowestId, localFaceCount))
    (INT_MAX, 0)

/-- Share `perc` computed for one next hop in the second loop (lines 399-408). -/
def initialPerc (INIT_SHORTEST_PATH : Bool) (lowestId localFaceCount size : Nat)
    (n : NextHop) : ℚ :=
  if localFaceCount > 0 ∨ INIT_SHORTEST_PATH = true then
    if n.face.id = lowestId then 1 else 0
  else
    1 / (size : ℚ)

/-- The function `PconStrategy::initializeForwMap` (lines 379-416): every next hop
of the list gets its initial share stored in the record. -/
def initializeForwMap (s : PconStrategy) (measurementInfo : MtForwardingInfo)
    (nexthops : List NextHop) : MtForwardingInfo :=
  let scan := scanNextHops nexthops
  nexthops.foldl
    (fun info n =>
      info.setforwPerc n.face.id
        (initialPerc s.INIT_SHORTEST_PATH scan.1 scan.2 nexthops.length n))
    measurementInfo

/-! ## afterReceiveInterest (lines 117-253) -/

/-- An in-record of the pending entry: the time it was last renewed. -/
structure InRecord where
  lastRenewed : Int
  deriving DecidableEq, Repr

/-- The part of `pit::Entry` the strategy reads. -/
structure PitEntry where
  hasPendingOutRecords : Bool
  inRecords : List InRecord
  deriving DecidableEq, Repr

/-- Everything one call of `afterReceiveInterest` reads from its arguments and its
collaborators: the arrival face, the interest, the pending entry, the next hops of
the FIB entry found by `lookupFib`, the clock, the value returned by `rand()`, and
`StrHelper::predicate_NextHop_eligible(pitEntry, n, inFace.getId())` as a predicate
on next hops. -/
structure Arrival where
  inFace : Face
  interest : Interest
  pitEntry : PitEntry
  nexthops : List NextHop
  now : Int
  rand : Nat
  eligible : NextHop → Bool

/-- How a call ended. -/
inductive Exit
  | suppressed
  | blocked
  | completed
  | assertFailed (line : Nat)
  | undefinedBehaviour (line : Nat)
  deriving DecidableEq, Repr

/-- A call that came back to its caller: one of the two early returns (lines 169
and 194) or the end of the function. -/
def Exit.returnsNormally : Exit → Bool
  | Exit.suppressed => true
  | Exit.blocked => true
  | Exit.completed => true
  | Exit.assertFailed _ => false
  | Exit.undefinedBehaviour _ => false

/-- Result of the forwarding part of a call: how it ended, the `sendInterest`
calls made, in order, and the strategy object afterwards. -/
structure Run where
  exit : Exit
  sent : List (Face × Interest)
  strategy : PconStrategy

/-- Loop of lines 153-159: the flag `requestFromNewFace` after all in-records have
been inspected. -/
def requestFromNewFace (now : Int) (inRecords : List InRecord) : Bool :=
  inRecords.foldl
    (fun flag r => if r.lastRenewed - now ≥ 0 then true else flag)
    false

/-- Duplicate guard of lines 146-171: `true` when the call returns at line 169. -/
def suppresses (a : Arrival) : Bool :=
  a.pitEntry.hasPendingOutRecords && requestFromNewFace a.now a.pitEntry.inRecords

/-- Value of the local `wantNewNonce` (lines 139-171) when line 174 is reached; no
later line of the function reads it. -/
def wantNewNonce (a : Arrival) : Bool :=
  a.pitEntry.hasPendingOutRecords && !requestFromNewFace a.now a.pitEntry.inRecords

/-- Loop of lines 179-189: the list `eligbleNHs` and the sum `percSum`. -/
def collectEligible (measurementInfo : MtForwardingInfo) (eligible : NextHop → Bool)
    (nexthops : List NextHop) : List NextHop × ℚ :=
  nexthops.foldl
    (fun acc n =>
      if eligible n = true then
        (acc.1 ++ [n], acc.2 + measurementInfo.getforwPerc n.face.id)
      else acc)
    ([], 0)

/-- How the loop of lines 216-224 ended. `broke i nh` is the `break` of line 222 in
iteration `i` (counted from 0) with `outNH = nh`. -/
inductive LoopExit
  | assertFailed (line : Nat)
  | broke (i : Nat) (nh : NextHop)
  | fellThrough
  deriving DecidableEq, Repr

/-- Loop of lines 216-224, started in iteration `i` with running sum `forwPerc`. -/
def chooseLoop (measurementInfo : MtForwardingInfo) (percSum r : ℚ) :
    ℚ → Nat → List NextHop → LoopExit
  | _, _, [] => LoopExit.fellThrough
  | forwPerc, i, nh :: rest =>
    let forwPerc1 := forwPerc + measurementInfo.getforwPerc nh.face.id / percSum
    if ¬ (forwPerc1 ≥ 0) then LoopExit.assertFailed 218
    else if ¬ (forwPerc1 ≤ 11 / 10) then LoopExit.assertFailed 219
    else if r < forwPerc1 then LoopExit.broke i nh
    else chooseLoop measurementInfo percSum r forwPerc1 (i + 1) rest

/-- The function `PconStrategy::probeInterests` (lines 258-271): the interests
sent, in order, and the nonce counter afterwards. -/
def probeInterests (m_nonce : Nat) (outFaceId : FaceId) (nexthops : List NextHop) :
    List (Face × Interest) × Nat :=
  nexthops.foldl
    (fun acc n =>
      if n.face.id ≠ outFaceId then
        (acc.1 ++ [(n.face, { name := "", nonce := acc.2 })], (acc.2 + 1) % NONCE_RANGE)
      else acc)
    ([], m_nonce)

/-- Lines 245-252: the interest is sent on `outNH`, then the other next hops are
probed when `r <= PROBING_PERCENTAGE`. -/
def sendAndProbe (s : PconStrategy) (a : Arrival) (r : ℚ) (outNH : NextHop) : Run :=
  if r ≤ s.PROBING_PERCENTAGE then
    let probes := probeInterests s.m_nonce outNH.face.id a.nexthops
    { exit := Exit.completed
      sent := (outNH.face, a.interest) :: probes.1
      strategy := { s with m_nonce := probes.2 } }
  else
    { exit := Exit.completed
      sent := [(outNH.face, a.interest)]
      strategy := s }

/-- Lines 139-252 of `afterReceiveInterest`: the duplicate guard, the eligibility
filter, the choice of `outNH` and the sends, run on the record `measurementInfo` as
it stands after line 135 and on the value `r` computed at line 177. -/
def forwardInterest (s : PconStrategy) (measurementInfo : MtForwardingInfo)
    (a : Arrival) (r : ℚ) : Run :=
  if suppresses a = true then
    { exit := Exit.suppressed, sent := [], strategy := s }
  else
    match a.nexthops with
    | [] => { exit := Exit.undefinedBehaviour 174, sent := [], strategy := s }
    | front :: _ =>
      let collected := collectEligible measurementInfo a.eligible a.nexthops
      match collected.1 with
      | [] => { exit := Exit.blocked, sent := [], strategy := s }
      | [only] => sendAndProbe s a r only
      | _ :: _ :: _ =>
        if ¬ (collected.2 > 0) then
          { exit := Exit.assertFailed 206, sent := [], strategy := s }
        else
          let s1 : PconStrategy :=
            if a.now ≥ s.m_lastFWWrite + TIME_BETWEEN_FW_WRITE then
              { s with m_lastFWWrite := a.now }
            else s
          match chooseLoop measurementInfo collected.2 r 0 0 collected.1 with
          | LoopExit.assertFailed line =>
            { exit := Exit.assertFailed line, sent := [], strategy := s1 }
          | LoopExit.broke _ nh => sendAndProbe s1 a r nh
          | LoopExit.fellThrough => sendAndProbe s1 a r front

/-- Lines 135-253 of `afterReceiveInterest`, run on the record that
`getMeasurementsEntryInfo` returned at line 124: the record after the call and the
forwarding result. -/
def afterReceiveInterestOn (s : PconStrategy) (measurementInfo : MtForwardingInfo)
    (a : Arrival) : MtForwardingInfo × Run :=
  let info := initializeForwMap s measurementInfo a.nexthops
  (info, forwardInterest s info a ((a.rand : ℚ) / (RAND_MAX : ℚ)))

/-! ## The measurements table and getMeasurementsEntryInfo (lines 96-115) -/

/-- Modelled from the spec: the measurements entry of a prefix together with its
chain of parent entries ("prefixes form a tree by construction"), each holding a
forwarding-share record or none yet. -/
inductive MeasurementsEntry
  | root (info : Option MtForwardingInfo)
  | child (info : Option MtForwardingInfo) (parent : MeasurementsEntry)
  deriving DecidableEq, Repr

/-- Record held by an entry, if any. -/
def MeasurementsEntry.info : MeasurementsEntry → Option MtForwardingInfo
  | MeasurementsEntry.root info => info
  | MeasurementsEntry.child info _ => info

/-- Entry with its own record replaced. -/
def MeasurementsEntry.setInfo : MeasurementsEntry → MtForwardingInfo → MeasurementsEntry
  | MeasurementsEntry.root _, info => MeasurementsEntry.root (some info)
  | MeasurementsEntry.child _ parent, info => MeasurementsEntry.child (some info) parent

/-- The function `PconStrategy::getMeasurementsEntryInfo` (lines 96-115): the
record of the entry, created when absent and then inherited from the record of the
parent entry, and the table afterwards. -/
def getMeasurementsEntryInfo : MeasurementsEntry → MtForwardingInfo × MeasurementsEntry
  | MeasurementsEntry.root (some info) => (info, MeasurementsEntry.root (some info))
  | MeasurementsEntry.root none => (⟨[]⟩, MeasurementsEntry.root (some ⟨[]⟩))
  | MeasurementsEntry.child (some info) parent =>
    (info, MeasurementsEntry.child (some info) parent)
  | MeasurementsEntry.child none parent =>
    let p := getMeasurementsEntryInfo parent
    let info := MtForwardingInfo.inheritFrom ⟨[]⟩ p.1
    (info, MeasurementsEntry.child (some info) p.2)

/-- The function `PconStrategy::afterReceiveInterest` (lines 117-253) on the
measurements entry of the FIB entry found at line 122: the table afterwards and the
forwarding result. -/
def afterReceiveInterest (s : PconStrategy) (entry : MeasurementsEntry) (a : Arrival) :
    MeasurementsEntry × Run :=
  let got := getMeasurementsEntryInfo entry
  let res := afterReceiveInterestOn s got.1 a
  (got.2.setInfo res.1, res.2)

/-! ## beforeSatisfyInterest (lines 273-345) -/

/-- Lines 291-321 of `beforeSatisfyInterest`, run on the record that
`getMeasurementsEntryInfo` returned at line 281; `congMark` is the local `int` of
line 291. -/
def beforeSatisfyInterestOn (s : PconStrategy) (measurementInfo : MtForwardingInfo)
    (inFace : Face) (congMark : Int) : MtForwardingInfo :=
  if measurementInfo.getFaceCount > 1
      ∧ ¬ (inFace.scope = FaceScope.FACE_SCOPE_LOCAL)
      ∧ inFace.localUri ≠ "contentstore://" then
    let updateBasedOnNACK := false
    if congMark ≠ 0 ∨ updateBasedOnNACK = true then
      let fwPerc := measurementInfo.getforwPerc inFace.id
      let change_perc := s.CHANGE_PER_MARK * fwPerc
      reduceFwPerc measurementInfo inFace.id change_perc
    else measurementInfo
  else measurementInfo

/-- The function `PconStrategy::beforeSatisfyInterest` (lines 273-345) on the
measurements entry of the FIB entry found at line 277. -/
def beforeSatisfyInterest (s : PconStrategy) (entry : MeasurementsEntry)
    (inFace : Face) (congMark : Int) : MeasurementsEntry :=
  let got := getMeasurementsEntryInfo entry
  got.2.setInfo (beforeSatisfyInterestOn s got.1 inFace congMark)

/-! ## Notions of the specification -/

/-- Share the record holds for a next hop. -/
def share (info : MtForwardingInfo) (nh : NextHop) : ℚ :=
  info.getforwPerc nh.face.id

/-- The eligible set of a request: the next hops, in next-hop list order, that
satisfy the eligibility predicate. -/
def eligibleSet (a : Arrival) : List NextHop :=
  a.nexthops.filter a.eligible

/-- Sum of the shares of a list of next hops. -/
def shareSum (info : MtForwardingInfo) (l : List NextHop) : ℚ :=
  (l.map (share info)).sum

/-- Running sum of `share/percSum` after the first `j` next hops of `l`. -/
def runningSum (info : MtForwardingInfo) (percSum : ℚ) (l : List NextHop) (j : Nat) : ℚ :=
  ((l.take j).map (fun nh => share info nh / percSum)).sum

/-- The bound `c(j)`: the sum of the first `j` shares of `l`, divided by `percSum`. -/
def cumShare (info : MtForwardingInfo) (percSum : ℚ) (l : List NextHop) (j : Nat) : ℚ :=
  shareSum info (l.take j) / percSum

/-! ## Concrete inputs -/

/-- Face 3, the arrival face of the examples. -/
def faceA : Face := ⟨3, FaceScope.FACE_SCOPE_NON_LOCAL, "netdev://a"⟩

/-- Face 1. -/
def faceB : Face := ⟨1, FaceScope.FACE_SCOPE_NON_LOCAL, "netdev://b"⟩

/-- Face 2. -/
def faceC : Face := ⟨2, FaceScope.FACE_SCOPE_NON_LOCAL, "netdev://c"⟩

/-- A request arriving on face 3 for a prefix with next hops 3, 1, 2, no pending
out-record, `rand()` returning `k`, all next hops but the arrival face eligible. -/
def arrivalOnA (k : Nat) : Arrival :=
  { inFace := faceA
    interest := ⟨"/x", 7⟩
    pitEntry := ⟨false, []⟩
    nexthops := [⟨faceA⟩, ⟨faceB⟩, ⟨faceC⟩]
    now := 100
    rand := k
    eligible := fun n => decide (n.face.id ≠ 3) }

/-- A request arriving on face 3 for a name without a route: the FIB entry found by
`lookupFib` has no next hop. -/
def arrivalNoRoute : Arrival :=
  { inFace := faceA
    interest := ⟨"/x", 7⟩
    pitEntry := ⟨false, []⟩
    nexthops := []
    now := 100
    rand := 5
    eligible := fun n => decide (n.face.id ≠ 3) }

/-- A request arriving on face 3 for a prefix with next hops 1 and 2. -/
def arrivalFromConsumer : Arrival :=
  { inFace := faceA
    interest := ⟨"/x", 7⟩
    pitEntry := ⟨false, []⟩
    nexthops := [⟨faceB⟩, ⟨faceC⟩]
    now := 100
    rand := 1073741823
    eligible := fun n => decide (n.face.id ≠ 3) }

/-- Two next hops whose link-ids lie above `INT_MAX`. -/
def highIdHops : List NextHop :=
  [⟨⟨2147483648, FaceScope.FACE_SCOPE_NON_LOCAL, "netdev://h"⟩⟩,
   ⟨⟨2147483649, FaceScope.FACE_SCOPE_NON_LOCAL, "netdev://i"⟩⟩]

/-- A retransmission: the same request as `arrivalFromConsumer`, with a pending
out-record and one in-record last renewed before now. -/
def arrivalRetransmission : Arrival :=
  { inFace := faceA
    interest := ⟨"/x", 7⟩
    pitEntry := ⟨true, [⟨50⟩]⟩
    nexthops := [⟨faceB⟩, ⟨faceC⟩]
    now := 100
    rand := 1073741823
    eligible := fun n => decide (n.face.id ≠ 3) }

/-- A request arriving on face 1, the lowest link-id among the next hops 1, 2, 3;
the arrival face is the only next hop that is not eligible. -/
def arrivalOnLowest : Arrival :=
  { inFace := faceB
    interest := ⟨"/x", 7⟩
    pitEntry := ⟨false, []⟩
    nexthops := [⟨faceB⟩, ⟨faceC⟩, ⟨faceA⟩]
    now := 100
    rand := 1073741823
    eligible := fun n => decide (n.face.id ≠ 1) }

/-- A request arriving on face 3 for a prefix whose two next hops have link-ids above
`INT_MAX`; both are eligible. -/
def arrivalHighIds : Arrival :=
  { inFace := faceA
    interest := ⟨"/x", 7⟩
    pitEntry := ⟨false, []⟩
    nexthops := highIdHops
    now := 100
    rand := 1073741823
    eligible := fun n => decide (n.face.id ≠ 3) }

/-! ## Sequences of calls -/

/-- Every share the record holds lies in `[0,1]`. -/
def sharesInUnitInterval (info : MtForwardingInfo) : Prop :=
  ∀ kv ∈ info.forwPercMap, 0 ≤ kv.2 ∧ kv.2 ≤ 1

/-- An event handled for one prefix: a request arrival (`afterReceiveInterest`) or a
response arrival (`beforeSatisfyInterest`, with the arrival face and the congestion
mark). -/
inductive Event
  | request (a : Arrival)
  | response (inFace : Face) (congMark : Int)

/-- The strategy object and the record of the prefix after a sequence of events has
been handled in order; a call that ends in a fault ends the sequence. -/
def handleEvents : PconStrategy → MtForwardingInfo → List Event →
    PconStrategy × MtForwardingInfo
  | s, info, [] => (s, info)
  | s, info, Event.request a :: rest =>
    let res := afterReceiveInterestOn s info a
    if res.2.exit.returnsNormally = true then handleEvents res.2.strategy res.1 rest
    else (res.2.strategy, res.1)
  | s, info, Event.response inFace congMark :: rest =>
    handleEvents s (beforeSatisfyInterestOn s info inFace congMark) rest

/-- The probes sent, in order, and the nonce counter after a sequence of calls of
`probeInterests`, each with its `outFaceId` and next-hop list. -/
def probeCalls : Nat → List (FaceId × List NextHop) → List (Face × Interest) × Nat
  | m_nonce, [] => ([], m_nonce)
  | m_nonce, call :: rest =>
    let first := probeInterests m_nonce call.1 call.2
    let later := probeCalls first.2 rest
    (first.1 ++ later.1, later.2)

/-- Next hops of a list whose link-id differs from `outFaceId`, in list order. -/
def otherNextHops (outFaceId : FaceId) (nexthops : List NextHop) : List NextHop :=
  nexthops.filter (fun n => decide (n.face.id ≠ outFaceId))

/-- Two strategy objects with the same configuration: `INIT_SHORTEST_PATH`,
`CHANGE_PER_MARK` and `PROBING_PERCENTAGE`. -/
def sameConfiguration (s s1 : PconStrategy) : Prop :=
  s1.INIT_SHORTEST_PATH = s.INIT_SHORTEST_PATH
    ∧ s1.CHANGE_PER_MARK = s.CHANGE_PER_MARK
    ∧ s1.PROBING_PERCENTAGE = s.PROBING_PERCENTAGE

/-- Number of probes a sequence of calls of `probeInterests` sends: per call, the number
of next hops whose link-id differs from `outFaceId`. -/
def probeCount (calls : List (FaceId × List NextHop)) : Nat :=
  (calls.map (fun call => (otherNextHops call.1 call.2).length)).sum

/-- Nonces carried by a list of sent interests, in order. -/
def noncesOf (sent : List (Face × Interest)) : List Nat :=
  sent.map (fun p => p.2.nonce)

/-! ## Lemmas on the forwarding-share record and initializeForwMap -/

theorem lookupPerc_storePerc_same (m : List (FaceId × ℚ)) (id : FaceId) (p : ℚ) :
    lookupPerc (storePerc m id p) id = p := by
  induction m with
  | nil => simp [storePerc, lookupPerc]
  | cons kv rest ih =>
    obtain ⟨k, v⟩ := kv
    by_cases h : k = id
    · simp [storePerc, lookupPerc, h]
    · simp [storePerc, lookupPerc, h, ih]

theorem lookupPerc_storePerc_other (m : List (FaceId × ℚ)) (id other : FaceId) (p : ℚ)
    (h : other ≠ id) : lookupPerc (storePerc m id p) other = lookupPerc m other := by
  induction m with
  | nil => simp [storePerc, lookupPerc, Ne.symm h]
  | cons kv rest ih =>
    obtain ⟨k, v⟩ := kv
    by_cases hk : k = id
    · subst hk
      simp [storePerc, lookupPerc, Ne.symm h]
    · by_cases ho : k = other
      · subst ho
        simp [storePerc, lookupPerc, hk]
      · simp [storePerc, lookupPerc, hk, ho, ih]

theorem getforwPerc_setforwPerc_same (info : MtForwardingInfo) (id : FaceId) (p : ℚ) :
    (info.setforwPerc id p).getforwPerc id = p :=
  lookupPerc_storePerc_same info.forwPercMap id p

theorem getforwPerc_setforwPerc_other (info : MtForwardingInfo) (id other : FaceId) (p : ℚ)
    (h : other ≠ id) : (info.setforwPerc id p).getforwPerc other = info.getforwPerc other :=
  lookupPerc_storePerc_other info.forwPercMap id other p h

/-- Storing shares for a list of next hops leaves the share of any other link-id alone. -/
theorem getforwPerc_foldl_setforwPerc_other (f : NextHop → ℚ) (l : List NextHop) :
    ∀ (info : MtForwardingInfo) (id : FaceId), (∀ n ∈ l, n.face.id ≠ id) →
      (l.foldl (fun acc n => acc.setforwPerc n.face.id (f n)) info).getforwPerc id
        = info.getforwPerc id := by
  induction l with
  | nil => intro info id _; rfl
  | cons x xs ih =>
    intro info id h
    simp only [List.foldl_cons]
    rw [ih _ id (fun n hn => h n (List.mem_cons_of_mem _ hn))]
    exact getforwPerc_setforwPerc_other info x.face.id id (f x)
      (Ne.symm (h x (List.mem_cons_self _ _)))

/-- Storing shares that depend on the link-id only gives every next hop of the list
its share. -/
theorem getforwPerc_foldl_setforwPerc_mem (f : NextHop → ℚ)
    (hf : ∀ n m : NextHop, n.face.id = m.face.id → f n = f m) (l : List NextHop) :
    ∀ (info : MtForwardingInfo), ∀ n ∈ l,
      (l.foldl (fun acc n => acc.setforwPerc n.face.id (f n)) info).getforwPerc n.face.id
        = f n := by
  induction l with
  | nil => intro info n hn; simp at hn
  | cons x xs ih =>
    intro info n hn
    simp only [List.foldl_cons]
    by_cases hex : ∃ m ∈ xs, m.face.id = n.face.id
    · obtain ⟨m, hm, hid⟩ := hex
      have := ih (info.setforwPerc x.face.id (f x)) m hm
      rw [hid] at this
      rw [this]
      exact hf m n hid
    · have hne : ∀ m ∈ xs, m.face.id ≠ n.face.id := by
        intro m hm hid
        exact hex ⟨m, hm, hid⟩
      rw [getforwPerc_foldl_setforwPerc_other f xs _ n.face.id hne]
      rcases List.mem_cons.mp hn with hnx | hnxs
      · subst hnx
        exact getforwPerc_setforwPerc_same info _ _
      · exact absurd rfl (hne n hnxs)

theorem initialPerc_congr (b : Bool) (lowestId localFaceCount size : Nat) (n m : NextHop)
    (h : n.face.id = m.face.id) :
    initialPerc b lowestId localFaceCount size n = initialPerc b lowestId localFaceCount size m := by
  simp [initialPerc, h]

/-- After `initializeForwMap` every next hop holds the share computed for it at
lines 399-408, whatever the record held before. -/
theorem getforwPerc_initializeForwMap (s : PconStrategy) (info : MtForwardingInfo)
    (nexthops : List NextHop) (n : NextHop) (hn : n ∈ nexthops) :
    (initializeForwMap s info nexthops).getforwPerc n.face.id
      = initialPerc s.INIT_SHORTEST_PATH (scanNextHops nexthops).1 (scanNextHops nexthops).2
          nexthops.length n := by
  unfold initializeForwMap
  exact getforwPerc_foldl_setforwPerc_mem _
    (fun a b h => initialPerc_congr _ _ _ _ a b h) nexthops info n hn

/-- `initializeForwMap` leaves the share of a link-id outside the next-hop list alone. -/
theorem getforwPerc_initializeForwMap_other (s : PconStrategy) (info : MtForwardingInfo)
    (nexthops : List NextHop) (id : FaceId) (h : ∀ n ∈ nexthops, n.face.id ≠ id) :
    (initializeForwMap s info nexthops).getforwPerc id = info.getforwPerc id := by
  unfold initializeForwMap
  exact getforwPerc_foldl_setforwPerc_other _ nexthops info id h

/-- Generalised first loop of `initializeForwMap`. -/
theorem scan_foldl (l : List NextHop) : ∀ (lo cnt : Nat),
    l.foldl
      (fun (acc : Nat × Nat) n =>
        ((if n.face.id < acc.1 then n.face.id else acc.1),
         (if n.face.scope = FaceScope.FACE_SCOPE_LOCAL then acc.2 + 1 else acc.2)))
      (lo, cnt)
    = (l.foldl (fun lo n => if n.face.id < lo then n.face.id else lo) lo,
       cnt + (l.filter (fun n => decide (n.face.scope = FaceScope.FACE_SCOPE_LOCAL))).length) := by
  induction l with
  | nil => intro lo cnt; simp
  | cons x xs ih =>
    intro lo cnt
    simp only [List.foldl_cons, ih]
    by_cases hx : x.face.scope = FaceScope.FACE_SCOPE_LOCAL
    · simp [hx, List.filter_cons]; omega
    · simp [hx, List.filter_cons]

theorem scanNextHops_snd (l : List NextHop) :
    (scanNextHops l).2
      = (l.filter (fun n => decide (n.face.scope = FaceScope.FACE_SCOPE_LOCAL))).length := by
  unfold scanNextHops
  have := scan_foldl l INT_MAX 0
  simp only [] at this ⊢
  rw [this]; simp

theorem scanNextHops_fst (l : List NextHop) :
    (scanNextHops l).1 = l.foldl (fun lo n => if n.face.id < lo then n.face.id else lo) INT_MAX := by
  unfold scanNextHops
  have := scan_foldl l INT_MAX 0
  simp only [] at this ⊢
  rw [this]

/-! ## Lemmas on the forwarding part of afterReceiveInterest -/

theorem sent_head_sendAndProbe (s : PconStrategy) (a : Arrival) (r : ℚ) (outNH : NextHop) :
    (sendAndProbe s a r outNH).sent.head? = some (outNH.face, a.interest) := by
  unfold sendAndProbe
  split <;> rfl

theorem exit_sendAndProbe (s : PconStrategy) (a : Arrival) (r : ℚ) (outNH : NextHop) :
    (sendAndProbe s a r outNH).exit = Exit.completed := by
  unfold sendAndProbe
  split <;> rfl

/-- Generalised loop of lines 179-189. -/
theorem collectEligible_foldl (info : MtForwardingInfo) (eligible : NextHop → Bool)
    (l : List NextHop) : ∀ (acc : List NextHop) (sum : ℚ),
    l.foldl
      (fun (acc : List NextHop × ℚ) n =>
        if eligible n = true then (acc.1 ++ [n], acc.2 + info.getforwPerc n.face.id) else acc)
      (acc, sum)
    = (acc ++ l.filter eligible, sum + ((l.filter eligible).map (share info)).sum) := by
  induction l with
  | nil => intro acc sum; simp
  | cons x xs ih =>
    intro acc sum
    simp only [List.foldl_cons]
    by_cases hx : eligible x = true
    · simp [hx, ih, List.filter_cons, share, add_assoc]
    · simp [hx, ih, List.filter_cons]

/-- The loop of lines 179-189 builds the eligible set and the sum of its shares. -/
theorem collectEligible_eq (info : MtForwardingInfo) (a : Arrival) :
    collectEligible info a.eligible a.nexthops
      = (eligibleSet a, shareSum info (eligibleSet a)) := by
  unfold collectEligible
  rw [collectEligible_foldl]
  simp [eligibleSet, shareSum]

theorem forwardInterest_suppressed (s : PconStrategy) (info : MtForwardingInfo) (a : Arrival)
    (r : ℚ) (h : suppresses a = true) :
    forwardInterest s info a r = { exit := Exit.suppressed, sent := [], strategy := s } := by
  simp [forwardInterest, h]

theorem forwardInterest_no_nexthops (s : PconStrategy) (info : MtForwardingInfo) (a : Arrival)
    (r : ℚ) (h : suppresses a = false) (hnh : a.nexthops = []) :
    forwardInterest s info a r
      = { exit := Exit.undefinedBehaviour 174, sent := [], strategy := s } := by
  simp [forwardInterest, h, hnh]

theorem forwardInterest_blocked (s : PconStrategy) (info : MtForwardingInfo) (a : Arrival)
    (r : ℚ) (h : suppresses a = false) (hnh : a.nexthops ≠ []) (hel : eligibleSet a = []) :
    forwardInterest s info a r = { exit := Exit.blocked, sent := [], strategy := s } := by
  unfold forwardInterest
  rw [collectEligible_eq]
  cases hl : a.nexthops with
  | nil => exact absurd hl hnh
  | cons front rest => simp [h, hel]

theorem forwardInterest_single (s : PconStrategy) (info : MtForwardingInfo) (a : Arrival)
    (r : ℚ) (nh : NextHop) (h : suppresses a = false) (hel : eligibleSet a = [nh]) :
    forwardInterest s info a r = sendAndProbe s a r nh := by
  unfold forwardInterest
  rw [collectEligible_eq]
  cases hl : a.nexthops with
  | nil => simp [eligibleSet, hl] at hel
  | cons front rest => simp [h, hel]

/-- A request with a next hop but without an eligible one is dropped: nothing is
sent and the call returns. -/
theorem forwardInterest_empty_eligible (s : PconStrategy) (info : MtForwardingInfo)
    (a : Arrival) (r : ℚ) (hnh : a.nexthops ≠ []) (hel : eligibleSet a = []) :
    (forwardInterest s info a r).sent = []
      ∧ (forwardInterest s info a r).exit.returnsNormally = true := by
  cases h : suppresses a with
  | true => rw [forwardInterest_suppressed s info a r h]; exact ⟨rfl, rfl⟩
  | false => rw [forwardInterest_blocked s info a r h hnh hel]; exact ⟨rfl, rfl⟩

theorem afterReceiveInterest_snd (s : PconStrategy) (entry : MeasurementsEntry) (a : Arrival) :
    (afterReceiveInterest s entry a).2
      = forwardInterest s (initializeForwMap s (getMeasurementsEntryInfo entry).1 a.nexthops) a
          ((a.rand : ℚ) / (RAND_MAX : ℚ)) := rfl

theorem info_setInfo (e : MeasurementsEntry) (x : MtForwardingInfo) :
    (e.setInfo x).info = some x := by
  cases e <;> rfl

theorem afterReceiveInterest_info (s : PconStrategy) (entry : MeasurementsEntry) (a : Arrival) :
    (afterReceiveInterest s entry a).1.info
      = some (initializeForwMap s (getMeasurementsEntryInfo entry).1 a.nexthops) := by
  unfold afterReceiveInterest afterReceiveInterestOn
  exact info_setInfo _ _

theorem getMeasurementsEntryInfo_existing (entry : MeasurementsEntry) (info : MtForwardingInfo)
    (h : entry.info = some info) : getMeasurementsEntryInfo entry = (info, entry) := by
  cases entry with
  | root i => simp [MeasurementsEntry.info] at h; subst h; rfl
  | child i p => simp [MeasurementsEntry.info] at h; subst h; rfl

/-- Whatever the record held (from an earlier call, from congestion feedback or from
the parent record), after `afterReceiveInterest` every next hop holds its initial
share again. -/
theorem afterReceiveInterest_reseeds (s : PconStrategy) (entry : MeasurementsEntry)
    (a : Arrival) (n : NextHop) (hn : n ∈ a.nexthops) :
    ((afterReceiveInterest s entry a).1.info.map (fun info => info.getforwPerc n.face.id))
      = some (initialPerc s.INIT_SHORTEST_PATH (scanNextHops a.nexthops).1
          (scanNextHops a.nexthops).2 a.nexthops.length n) := by
  rw [afterReceiveInterest_info]
  simp [getforwPerc_initializeForwMap s _ a.nexthops n hn]

/-! ## Lemmas on the choice loop (lines 216-224) -/

theorem runningSum_zero (info : MtForwardingInfo) (P : ℚ) (l : List NextHop) :
    runningSum info P l 0 = 0 := by
  simp [runningSum]

theorem runningSum_cons_succ (info : MtForwardingInfo) (P : ℚ) (x : NextHop)
    (xs : List NextHop) (k : Nat) :
    runningSum info P (x :: xs) (k + 1) = share info x / P + runningSum info P xs k := by
  simp [runningSum]

theorem runningSum_nonneg (info : MtForwardingInfo) (P : ℚ) (l : List NextHop)
    (h : ∀ nh ∈ l, 0 ≤ share info nh / P) (k : Nat) : 0 ≤ runningSum info P l k := by
  unfold runningSum
  apply List.sum_nonneg
  intro x hx
  obtain ⟨nh, hnh, rfl⟩ := List.mem_map.mp hx
  exact h nh (List.mem_of_mem_take hnh)

theorem runningSum_length (info : MtForwardingInfo) (P : ℚ) (l : List NextHop) :
    runningSum info P l l.length = (l.map (fun nh => share info nh / P)).sum := by
  simp [runningSum]

theorem sum_map_div (info : MtForwardingInfo) (P : ℚ) (l : List NextHop) :
    (l.map (fun nh => share info nh / P)).sum = shareSum info l / P := by
  induction l with
  | nil => simp [shareSum]
  | cons x xs ih =>
    simp only [List.map_cons, List.sum_cons, ih, shareSum]
    rw [add_div]

/-- With terms that are not negative the running sum does not decrease. -/
theorem runningSum_mono (info : MtForwardingInfo) (P : ℚ) (l : List NextHop) :
    (∀ nh ∈ l, 0 ≤ share info nh / P) → ∀ j k : Nat, j ≤ k →
      runningSum info P l j ≤ runningSum info P l k := by
  induction l with
  | nil => intro _ j k _; simp [runningSum]
  | cons x xs ih =>
    intro h j k hjk
    cases j with
    | zero =>
      rw [runningSum_zero]
      exact runningSum_nonneg info P (x :: xs) h k
    | succ j =>
      cases k with
      | zero => omega
      | succ k =>
        rw [runningSum_cons_succ, runningSum_cons_succ]
        have := ih (fun y hy => h y (List.mem_cons_of_mem _ hy)) j k (by omega)
        linarith

/-- With terms that are not negative no running sum exceeds the sum over the whole
list. -/
theorem runningSum_le_sum (info : MtForwardingInfo) (P : ℚ) (l : List NextHop) :
    (∀ nh ∈ l, 0 ≤ share info nh / P) → ∀ k : Nat,
      runningSum info P l k ≤ (l.map (fun nh => share info nh / P)).sum := by
  induction l with
  | nil => intro _ k; simp [runningSum]
  | cons x xs ih =>
    intro h k
    have hxs : ∀ y ∈ xs, 0 ≤ share info y / P :=
      fun y hy => h y (List.mem_cons_of_mem _ hy)
    cases k with
    | zero =>
      rw [runningSum_zero]
      apply List.sum_nonneg
      intro z hz
      obtain ⟨y, hy, rfl⟩ := List.mem_map.mp hz
      exact h y hy
    | succ k =>
      rw [runningSum_cons_succ]
      simp only [List.map_cons, List.sum_cons]
      have := ih hxs k
      linarith

/-- The running sum grows by `share/percSum` of the next hop at position `i`. -/
theorem runningSum_succ (info : MtForwardingInfo) (P : ℚ) (l : List NextHop) :
    ∀ (i : Nat) (nh : NextHop), l[i]? = some nh →
      runningSum info P l (i + 1) = runningSum info P l i + share info nh / P := by
  induction l with
  | nil => intro i nh h; simp at h
  | cons x xs ih =>
    intro i nh h
    cases i with
    | zero =>
      simp at h
      subst h
      rw [runningSum_cons_succ, runningSum_zero, runningSum_zero]
      ring
    | succ i =>
      have h2 : xs[i]? = some nh := by simpa using h
      rw [runningSum_cons_succ, runningSum_cons_succ, ih i nh h2]
      ring

/-- In exact arithmetic the running sum of `share/percSum` is the sum of the shares
divided by `percSum`. -/
theorem runningSum_eq_cumShare (info : MtForwardingInfo) (P : ℚ) (l : List NextHop)
    (j : Nat) : runningSum info P l j = cumShare info P l j := by
  unfold runningSum cumShare
  exact sum_map_div info P (l.take j)

/-- The loop of lines 216-224 breaks in iteration `j` on `nh` exactly when `nh` is the
next hop at that position and `r` lies between the running sums before and after it,
as long as no assertion can fail. -/
theorem chooseLoop_broke_iff (info : MtForwardingInfo) (P r : ℚ) (l : List NextHop) :
    ∀ (acc : ℚ) (i0 j : Nat) (nh : NextHop),
      (∀ x ∈ l, 0 ≤ share info x / P) → 0 ≤ acc → acc ≤ r →
      acc + (l.map (fun x => share info x / P)).sum ≤ 11 / 10 →
      (chooseLoop info P r acc i0 l = LoopExit.broke j nh
        ↔ ∃ k, j = i0 + k ∧ l[k]? = some nh
            ∧ acc + runningSum info P l k ≤ r
            ∧ r < acc + runningSum info P l (k + 1)) := by
  induction l with
  | nil =>
    intro acc i0 j nh _ _ _ _
    simp [chooseLoop]
  | cons x xs ih =>
    intro acc i0 j nh hnn hacc haccr hbound
    have hx : 0 ≤ share info x / P := hnn x (List.mem_cons_self _ _)
    have hxs : ∀ y ∈ xs, 0 ≤ share info y / P :=
      fun y hy => hnn y (List.mem_cons_of_mem _ hy)
    have hrest : 0 ≤ (xs.map (fun y => share info y / P)).sum := by
      apply List.sum_nonneg
      intro z hz
      obtain ⟨y, hy, rfl⟩ := List.mem_map.mp hz
      exact hxs y hy
    simp only [List.map_cons, List.sum_cons] at hbound
    have h0 : 0 ≤ acc + share info x / P := by linarith
    have h1 : acc + share info x / P ≤ 11 / 10 := by linarith
    have hstep : chooseLoop info P r acc i0 (x :: xs)
        = if r < acc + share info x / P then LoopExit.broke i0 x
          else chooseLoop info P r (acc + share info x / P) (i0 + 1) xs := by
      simp only [chooseLoop, share]
      simp only [share] at h0 h1
      simp [h0, h1]
    rw [hstep]
    by_cases hr : r < acc + share info x / P
    · simp only [hr, if_true]
      constructor
      · intro h
        injection h with hj hn
        refine ⟨0, by omega, by simp [hn], ?_, ?_⟩
        · rw [runningSum_zero]; linarith
        · rw [runningSum_cons_succ, runningSum_zero]; linarith
      · rintro ⟨k, hk, hget, hle, _⟩
        cases k with
        | zero =>
          simp at hget
          subst hget
          simp [hk]
        | succ k =>
          rw [runningSum_cons_succ] at hle
          have := runningSum_nonneg info P xs hxs k
          linarith
    · simp only [hr, if_false]
      rw [ih (acc + share info x / P) (i0 + 1) j nh hxs h0 (not_lt.mp hr) (by linarith)]
      constructor
      · rintro ⟨k, hk, hget, hle, hlt⟩
        refine ⟨k + 1, by omega, by simpa using hget, ?_, ?_⟩
        · rw [runningSum_cons_succ]; linarith
        · rw [runningSum_cons_succ]; linarith
      · rintro ⟨k, hk, hget, hle, hlt⟩
        cases k with
        | zero =>
          rw [runningSum_cons_succ, runningSum_zero] at hlt
          exact absurd (by linarith) hr
        | succ k =>
          refine ⟨k, by omega, by simpa using hget, ?_, ?_⟩
          · rw [runningSum_cons_succ] at hle; linarith
          · rw [runningSum_cons_succ] at hlt; linarith

/-- When `r` lies below the final running sum and no assertion can fail, the loop of
lines 216-224 ends with a `break`. -/
theorem chooseLoop_breaks (info : MtForwardingInfo) (P r : ℚ) (l : List NextHop) :
    ∀ (acc : ℚ) (i0 : Nat),
      (∀ x ∈ l, 0 ≤ share info x / P) → 0 ≤ acc → acc ≤ r →
      acc + (l.map (fun x => share info x / P)).sum ≤ 11 / 10 →
      r < acc + (l.map (fun x => share info x / P)).sum →
      ∃ j nh, chooseLoop info P r acc i0 l = LoopExit.broke j nh := by
  induction l with
  | nil =>
    intro acc i0 _ _ haccr _ hlt
    simp only [List.map_nil, List.sum_nil, add_zero] at hlt
    exact absurd hlt (not_lt.mpr haccr)
  | cons x xs ih =>
    intro acc i0 hnn hacc haccr hbound hlt
    have hx : 0 ≤ share info x / P := hnn x (List.mem_cons_self _ _)
    have hxs : ∀ y ∈ xs, 0 ≤ share info y / P :=
      fun y hy => hnn y (List.mem_cons_of_mem _ hy)
    have hrest : 0 ≤ (xs.map (fun y => share info y / P)).sum := by
      apply List.sum_nonneg
      intro z hz
      obtain ⟨y, hy, rfl⟩ := List.mem_map.mp hz
      exact hxs y hy
    simp only [List.map_cons, List.sum_cons] at hbound hlt
    have h0 : 0 ≤ acc + share info x / P := by linarith
    have h1 : acc + share info x / P ≤ 11 / 10 := by linarith
    have hstep : chooseLoop info P r acc i0 (x :: xs)
        = if r < acc + share info x / P then LoopExit.broke i0 x
          else chooseLoop info P r (acc + share info x / P) (i0 + 1) xs := by
      simp only [chooseLoop, share]
      simp only [share] at h0 h1
      simp [h0, h1]
    rw [hstep]
    by_cases hr : r < acc + share info x / P
    · exact ⟨i0, x, by simp [hr]⟩
    · simp only [hr, if_false]
      exact ih _ _ hxs h0 (not_lt.mp hr) (by linarith) (by linarith)

/-- Shares that are not negative and sum to a positive `percSum` give terms
`share/percSum` that are not negative and sum to 1. -/
theorem normalised_terms (info : MtForwardingInfo) (l : List NextHop)
    (hnonneg : ∀ nh ∈ l, 0 ≤ share info nh) (hsum : 0 < shareSum info l) :
    (∀ x ∈ l, 0 ≤ share info x / shareSum info l)
      ∧ (l.map (fun x => share info x / shareSum info l)).sum = 1 := by
  refine ⟨fun x hx => div_nonneg (hnonneg x hx) (le_of_lt hsum), ?_⟩
  rw [sum_map_div]
  exact div_self (ne_of_gt hsum)

/-- Multi-link branch of `afterReceiveInterest` (lines 202-252) when the loop breaks:
the interest is sent on the next hop of the break. -/
theorem forwardInterest_multi_broke (s : PconStrategy) (info : MtForwardingInfo)
    (a : Arrival) (r : ℚ) (j : Nat) (nh : NextHop)
    (hguard : suppresses a = false) (htwo : 2 ≤ (eligibleSet a).length)
    (hsum : 0 < shareSum info (eligibleSet a))
    (hloop : chooseLoop info (shareSum info (eligibleSet a)) r 0 0 (eligibleSet a)
      = LoopExit.broke j nh) :
    forwardInterest s info a r
      = sendAndProbe
          (if a.now ≥ s.m_lastFWWrite + TIME_BETWEEN_FW_WRITE then
            { s with m_lastFWWrite := a.now } else s) a r nh := by
  unfold forwardInterest
  rw [collectEligible_eq]
  cases hl : a.nexthops with
  | nil => simp [eligibleSet, hl] at htwo
  | cons front rest =>
    cases he : eligibleSet a with
    | nil => simp [he] at htwo
    | cons e1 es =>
      cases es with
      | nil => simp [he] at htwo
      | cons e2 es =>
        rw [he] at hloop hsum
        simp [hguard, hsum, hloop]

/-! ## Lemmas on the lowest link-id -/

theorem lowest_foldl_le_init (l : List NextHop) : ∀ lo : Nat,
    l.foldl (fun lo n => if n.face.id < lo then n.face.id else lo) lo ≤ lo := by
  induction l with
  | nil => intro lo; exact le_refl _
  | cons x xs ih =>
    intro lo
    simp only [List.foldl_cons]
    refine le_trans (ih _) ?_
    split <;> omega

theorem lowest_foldl_le_mem (l : List NextHop) : ∀ lo : Nat, ∀ n ∈ l,
    l.foldl (fun lo n => if n.face.id < lo then n.face.id else lo) lo ≤ n.face.id := by
  induction l with
  | nil => intro lo n hn; simp at hn
  | cons x xs ih =>
    intro lo n hn
    simp only [List.foldl_cons]
    rcases List.mem_cons.mp hn with h | h
    · subst h
      refine le_trans (lowest_foldl_le_init xs _) ?_
      split <;> omega
    · exact ih _ n h

theorem lowest_foldl_attained (l : List NextHop) : ∀ lo : Nat,
    l.foldl (fun lo n => if n.face.id < lo then n.face.id else lo) lo = lo
      ∨ ∃ n ∈ l, n.face.id = l.foldl (fun lo n => if n.face.id < lo then n.face.id else lo) lo := by
  induction l with
  | nil => intro lo; exact Or.inl rfl
  | cons x xs ih =>
    intro lo
    simp only [List.foldl_cons]
    rcases ih (if x.face.id < lo then x.face.id else lo) with h | ⟨n, hn, h⟩
    · by_cases hx : x.face.id < lo
      · right
        refine ⟨x, List.mem_cons_self _ _, ?_⟩
        rw [h]; simp [hx]
      · left
        rw [h]; simp [hx]
    · exact Or.inr ⟨n, List.mem_cons_of_mem _ hn, h⟩

/-- When some next hop has a link-id of at most `INT_MAX`, the first loop of
`initializeForwMap` leaves the lowest link-id of the list in `lowestId`. -/
theorem scanNextHops_lowest (l : List NextHop) (hrange : ∃ n ∈ l, n.face.id ≤ INT_MAX) :
    ∃ m ∈ l, m.face.id = (scanNextHops l).1 ∧ ∀ n ∈ l, m.face.id ≤ n.face.id := by
  rw [scanNextHops_fst]
  rcases lowest_foldl_attained l INT_MAX with h | ⟨m, hm, h⟩
  · obtain ⟨n, hn, hle⟩ := hrange
    have h1 := lowest_foldl_le_mem l INT_MAX n hn
    rw [h] at h1 ⊢
    refine ⟨n, hn, Nat.le_antisymm hle h1, ?_⟩
    intro k hk
    have h2 := lowest_foldl_le_mem l INT_MAX k hk
    rw [h] at h2
    exact Nat.le_trans hle h2
  · refine ⟨m, hm, h, ?_⟩
    intro k hk
    rw [h]
    exact lowest_foldl_le_mem l INT_MAX k hk

/-- For next hops with pairwise distinct link-ids of which one is at most
`INT_MAX`, whenever `INIT_SHORTEST_PATH` is true or a next hop has local scope,
`initializeForwMap` gives share 1 to the next hop with the lowest link-id and share 0
to every other next hop. -/
theorem initializeForwMap_shortest_path (s : PconStrategy) (info : MtForwardingInfo)
    (nexthops : List NextHop)
    (hdistinct : (nexthops.map (fun n => n.face.id)).Nodup)
    (hpolicy : s.INIT_SHORTEST_PATH = true
      ∨ ∃ n ∈ nexthops, n.face.scope = FaceScope.FACE_SCOPE_LOCAL)
    (hrange : ∃ n ∈ nexthops, n.face.id ≤ INT_MAX) :
    ∃ m ∈ nexthops,
      (∀ n ∈ nexthops, m.face.id ≤ n.face.id)
        ∧ (initializeForwMap s info nexthops).getforwPerc m.face.id = 1
        ∧ ∀ n ∈ nexthops, n ≠ m →
            (initializeForwMap s info nexthops).getforwPerc n.face.id = 0 := by
  obtain ⟨m, hm, hlow, hmin⟩ := scanNextHops_lowest nexthops hrange
  have hbranch : (scanNextHops nexthops).2 > 0 ∨ s.INIT_SHORTEST_PATH = true := by
    rcases hpolicy with h | ⟨n, hn, hloc⟩
    · exact Or.inr h
    · left
      rw [scanNextHops_snd]
      exact List.length_pos_of_mem (List.mem_filter.mpr ⟨hn, by simpa using hloc⟩)
  refine ⟨m, hm, hmin, ?_, ?_⟩
  · rw [getforwPerc_initializeForwMap s info nexthops m hm]
    simp [initialPerc, hbranch, hlow]
  · intro n hn hne
    rw [getforwPerc_initializeForwMap s info nexthops n hn]
    have hid : n.face.id ≠ (scanNextHops nexthops).1 := by
      intro h
      apply hne
      exact List.inj_on_of_nodup_map hdistinct hn hm (h.trans hlow.symm)
    simp [initialPerc, hbranch, hid]

/-! ## Lemmas for the guard, the probes and the faults -/

theorem requestFromNewFace_foldl (now : Int) (l : List InRecord) : ∀ flag : Bool,
    l.foldl (fun flag r => if r.lastRenewed - now ≥ 0 then true else flag) flag = true
      ↔ flag = true ∨ ∃ r ∈ l, ¬ (r.lastRenewed < now) := by
  induction l with
  | nil => intro flag; simp
  | cons x xs ih =>
    intro flag
    simp only [List.foldl_cons, ih]
    by_cases hx : x.lastRenewed - now ≥ 0
    · have h2 : now ≤ x.lastRenewed := by omega
      simp [hx, h2]
    · have h2 : ¬ (now ≤ x.lastRenewed) := by omega
      simp [hx, h2]

/-- The flag of lines 150-159 is set exactly when some in-record was last renewed at a
time that is not strictly before now. -/
theorem requestFromNewFace_iff (now : Int) (l : List InRecord) :
    requestFromNewFace now l = true ↔ ∃ r ∈ l, ¬ (r.lastRenewed < now) := by
  unfold requestFromNewFace
  rw [requestFromNewFace_foldl]
  simp

theorem suppresses_iff (a : Arrival) :
    suppresses a = true
      ↔ a.pitEntry.hasPendingOutRecords = true
          ∧ ∃ r ∈ a.pitEntry.inRecords, ¬ (r.lastRenewed < a.now) := by
  unfold suppresses
  rw [Bool.and_eq_true, requestFromNewFace_iff]

theorem sameConfiguration_refl (s : PconStrategy) : sameConfiguration s s :=
  ⟨rfl, rfl, rfl⟩

theorem sameConfiguration_lastFWWrite (s : PconStrategy) (now : Int) :
    sameConfiguration s
        (if now ≥ s.m_lastFWWrite + TIME_BETWEEN_FW_WRITE then
          { s with m_lastFWWrite := now } else s)
      ∧ (if now ≥ s.m_lastFWWrite + TIME_BETWEEN_FW_WRITE then
          { s with m_lastFWWrite := now } else s).m_nonce = s.m_nonce := by
  split <;> exact ⟨⟨rfl, rfl, rfl⟩, rfl⟩

/-- A call that passes the duplicate guard either ends without a send (undefined
`front()`, blocked, failed assertion) or runs lines 245-252 on some next hop. -/
theorem forwardInterest_cases (s : PconStrategy) (info : MtForwardingInfo) (a : Arrival)
    (r : ℚ) (h : suppresses a = false) :
    ((forwardInterest s info a r).sent = []
        ∧ (forwardInterest s info a r).exit ≠ Exit.suppressed
        ∧ (forwardInterest s info a r).exit ≠ Exit.completed
        ∧ sameConfiguration s (forwardInterest s info a r).strategy)
      ∨ ∃ (s1 : PconStrategy) (nh : NextHop),
          sameConfiguration s s1 ∧ s1.m_nonce = s.m_nonce
            ∧ forwardInterest s info a r = sendAndProbe s1 a r nh := by
  unfold forwardInterest
  rw [collectEligible_eq]
  cases hl : a.nexthops with
  | nil =>
    left
    simp [h, sameConfiguration_refl]
  | cons front rest =>
    cases he : eligibleSet a with
    | nil =>
      left
      simp [h, sameConfiguration_refl]
    | cons e1 es =>
      cases es with
      | nil =>
        right
        exact ⟨s, e1, sameConfiguration_refl s, rfl, by simp [h]⟩
      | cons e2 es =>
        by_cases hsum : shareSum info (e1 :: e2 :: es) > 0
        · cases hloop : chooseLoop info (shareSum info (e1 :: e2 :: es)) r 0 0
              (e1 :: e2 :: es) with
          | assertFailed line =>
            left
            simp [h, hsum, hloop, (sameConfiguration_lastFWWrite s a.now).1]
          | broke i nh =>
            right
            exact ⟨_, nh, (sameConfiguration_lastFWWrite s a.now).1,
              (sameConfiguration_lastFWWrite s a.now).2, by simp [h, hsum, hloop]⟩
          | fellThrough =>
            right
            exact ⟨_, front, (sameConfiguration_lastFWWrite s a.now).1,
              (sameConfiguration_lastFWWrite s a.now).2, by simp [h, hsum, hloop]⟩
        · left
          simp [h, hsum, sameConfiguration_refl]

/-- Only the return of line 169 ends a call as suppressed. -/
theorem forwardInterest_exit_suppressed_iff (s : PconStrategy) (info : MtForwardingInfo)
    (a : Arrival) (r : ℚ) :
    (forwardInterest s info a r).exit = Exit.suppressed ↔ suppresses a = true := by
  constructor
  · intro hexit
    cases h : suppresses a with
    | true => rfl
    | false =>
      rcases forwardInterest_cases s info a r h with ⟨_, hne, _, _⟩ | ⟨s1, nh, _, _, heq⟩
      · exact absurd hexit hne
      · rw [heq, exit_sendAndProbe] at hexit
        simp at hexit
  · intro h
    rw [forwardInterest_suppressed s info a r h]

/-- A call that completes has run lines 245-252 on some next hop. -/
theorem forwardInterest_completed (s : PconStrategy) (info : MtForwardingInfo) (a : Arrival)
    (r : ℚ) (h : (forwardInterest s info a r).exit = Exit.completed) :
    ∃ (s1 : PconStrategy) (nh : NextHop),
      sameConfiguration s s1 ∧ s1.m_nonce = s.m_nonce
        ∧ forwardInterest s info a r = sendAndProbe s1 a r nh := by
  cases hs : suppresses a with
  | true =>
    rw [forwardInterest_suppressed s info a r hs] at h
    simp at h
  | false =>
    rcases forwardInterest_cases s info a r hs with ⟨_, _, hne, _⟩ | hsend
    · exact absurd h hne
    · exact hsend

theorem setInfo_of_info (e : MeasurementsEntry) (x : MtForwardingInfo) (h : e.info = some x) :
    e.setInfo x = e := by
  cases e with
  | root i => simp [MeasurementsEntry.info] at h; subst h; rfl
  | child i p => simp [MeasurementsEntry.info] at h; subst h; rfl

/-- Lines 291-321 leave the record alone when the congestion mark is zero, the record
holds at most one link, the arrival face has local scope, or it is the content store. -/
theorem beforeSatisfyInterestOn_unchanged (s : PconStrategy) (info : MtForwardingInfo)
    (inFace : Face) (congMark : Int)
    (h : congMark = 0 ∨ info.getFaceCount ≤ 1
      ∨ inFace.scope = FaceScope.FACE_SCOPE_LOCAL ∨ inFace.localUri = "contentstore://") :
    beforeSatisfyInterestOn s info inFace congMark = info := by
  unfold beforeSatisfyInterestOn
  rcases h with h | h | h | h
  · simp [h]
  · have : ¬ (info.getFaceCount > 1) := by omega
    simp [this]
  · simp [h]
  · simp [h]

/-- When lines 245-252 run, the first interest sent is the interest that arrived. -/
theorem forwardInterest_sends_arrived_interest (s : PconStrategy) (info : MtForwardingInfo)
    (a : Arrival) (r : ℚ) (h : (forwardInterest s info a r).exit = Exit.completed) :
    ∃ nh : NextHop, (forwardInterest s info a r).sent.head? = some (nh.face, a.interest) := by
  obtain ⟨s1, nh, _, _, heq⟩ := forwardInterest_completed s info a r h
  exact ⟨nh, by rw [heq]; exact sent_head_sendAndProbe s1 a r nh⟩

/-- Past the duplicate guard the pending out-records play no part: the call runs as for
the same request without one. -/
theorem forwardInterest_guard_passed (s : PconStrategy) (info : MtForwardingInfo)
    (a : Arrival) (r : ℚ) (h : suppresses a = false) :
    forwardInterest s info a r
      = forwardInterest s info { a with pitEntry := ⟨false, a.pitEntry.inRecords⟩ } r := by
  have h2 : suppresses { a with pitEntry := ⟨false, a.pitEntry.inRecords⟩ } = false := by
    simp [suppresses]
  unfold forwardInterest
  rw [h, h2]
  rfl

/-- Generalised loop of `probeInterests`: the faces probed are those of the next hops
other than `outFaceId`, whatever the counter does. -/
theorem probeInterests_foldl_faces (outFaceId : FaceId) (l : List NextHop) :
    ∀ (acc : List (Face × Interest)) (m : Nat),
      (l.foldl
        (fun (acc : List (Face × Interest) × Nat) n =>
          if n.face.id ≠ outFaceId then
            (acc.1 ++ [(n.face, { name := "", nonce := acc.2 })], (acc.2 + 1) % NONCE_RANGE)
          else acc)
        (acc, m)).1.map Prod.fst
      = acc.map Prod.fst ++ (otherNextHops outFaceId l).map (fun n => n.face) := by
  induction l with
  | nil => intro acc m; simp [otherNextHops]
  | cons x xs ih =>
    intro acc m
    simp only [List.foldl_cons]
    by_cases hx : x.face.id = outFaceId
    · have hoth : otherNextHops outFaceId (x :: xs) = otherNextHops outFaceId xs := by
        simp [otherNextHops, hx]
      rw [hoth]
      simp only [hx, ne_eq, not_true_eq_false, if_false]
      exact ih acc m
    · have hoth : otherNextHops outFaceId (x :: xs) = x :: otherNextHops outFaceId xs := by
        simp [otherNextHops, hx]
      rw [hoth]
      simp only [hx, ne_eq, not_false_eq_true, if_true]
      rw [ih]
      simp

/-- The probes of one call go to the next hops whose link-id differs from `outFaceId`,
in next-hop list order. -/
theorem probeInterests_faces (m : Nat) (outFaceId : FaceId) (nexthops : List NextHop) :
    (probeInterests m outFaceId nexthops).1.map Prod.fst
      = (otherNextHops outFaceId nexthops).map (fun n => n.face) := by
  unfold probeInterests
  rw [probeInterests_foldl_faces]
  simp

/-- Generalised loop of `probeInterests` while the counter does not wrap. -/
theorem probeInterests_foldl (outFaceId : FaceId) (l : List NextHop) :
    ∀ (acc : List (Face × Interest)) (m : Nat),
      m + (otherNextHops outFaceId l).length < NONCE_RANGE →
      l.foldl
        (fun (acc : List (Face × Interest) × Nat) n =>
          if n.face.id ≠ outFaceId then
            (acc.1 ++ [(n.face, { name := "", nonce := acc.2 })], (acc.2 + 1) % NONCE_RANGE)
          else acc)
        (acc, m)
      = (acc ++ List.zipWith (fun n j => (n.face, ({ name := "", nonce := j } : Interest)))
            (otherNextHops outFaceId l) (List.range' m (otherNextHops outFaceId l).length),
          m + (otherNextHops outFaceId l).length) := by
  induction l with
  | nil => intro acc m _; simp [otherNextHops]
  | cons x xs ih =>
    intro acc m h
    simp only [List.foldl_cons]
    by_cases hx : x.face.id = outFaceId
    · have hoth : otherNextHops outFaceId (x :: xs) = otherNextHops outFaceId xs := by
        simp [otherNextHops, hx]
      rw [hoth] at h ⊢
      simp only [hx, ne_eq, not_true_eq_false, if_false]
      exact ih acc m h
    · have hoth : otherNextHops outFaceId (x :: xs) = x :: otherNextHops outFaceId xs := by
        simp [otherNextHops, hx]
      rw [hoth] at h ⊢
      simp only [List.length_cons] at h ⊢
      have hmod : (m + 1) % NONCE_RANGE = m + 1 := Nat.mod_eq_of_lt (by omega)
      simp only [hx, ne_eq, not_false_eq_true, if_true, hmod]
      rw [ih _ (m + 1) (by omega), List.range'_succ]
      simp only [List.zipWith_cons_cons, List.append_assoc, List.singleton_append]
      congr 1
      omega

/-- One call of `probeInterests` while the counter does not wrap. -/
theorem probeInterests_eq (m : Nat) (outFaceId : FaceId) (nexthops : List NextHop)
    (h : m + (otherNextHops outFaceId nexthops).length < NONCE_RANGE) :
    probeInterests m outFaceId nexthops
      = (List.zipWith (fun n j => (n.face, ({ name := "", nonce := j } : Interest)))
            (otherNextHops outFaceId nexthops)
            (List.range' m (otherNextHops outFaceId nexthops).length),
          m + (otherNextHops outFaceId nexthops).length) := by
  unfold probeInterests
  rw [probeInterests_foldl outFaceId nexthops [] m h]
  simp

theorem noncesOf_zipWith_range (l : List NextHop) : ∀ m : Nat,
    noncesOf (List.zipWith (fun n j => (n.face, ({ name := "", nonce := j } : Interest)))
      l (List.range' m l.length)) = List.range' m l.length := by
  induction l with
  | nil => intro m; simp [noncesOf]
  | cons x xs ih =>
    intro m
    have := ih (m + 1)
    simp only [noncesOf] at this
    simp [noncesOf, List.range'_succ, this]

/-- A sequence of calls of `probeInterests` while the counter does not wrap: the nonces
are consecutive from the first counter value. -/
theorem probeCalls_nonces (calls : List (FaceId × List NextHop)) : ∀ m : Nat,
    m + probeCount calls < NONCE_RANGE →
      noncesOf (probeCalls m calls).1 = List.range' m (probeCount calls)
        ∧ (probeCalls m calls).2 = m + probeCount calls := by
  induction calls with
  | nil => intro m _; simp [probeCalls, probeCount, noncesOf]
  | cons c cs ih =>
    intro m h
    have hcount : probeCount (c :: cs)
        = (otherNextHops c.1 c.2).length + probeCount cs := by
      simp [probeCount]
    rw [hcount] at h ⊢
    have hfirst := probeInterests_eq m c.1 c.2 (by omega)
    obtain ⟨hn, hc⟩ := ih (m + (otherNextHops c.1 c.2).length) (by omega)
    simp only [probeCalls, hfirst]
    refine ⟨?_, by rw [hc]; omega⟩
    have hsplit : noncesOf
        (List.zipWith (fun n j => (n.face, ({ name := "", nonce := j } : Interest)))
            (otherNextHops c.1 c.2) (List.range' m (otherNextHops c.1 c.2).length)
          ++ (probeCalls (m + (otherNextHops c.1 c.2).length) cs).1)
        = noncesOf (List.zipWith
            (fun n j => (n.face, ({ name := "", nonce := j } : Interest)))
            (otherNextHops c.1 c.2) (List.range' m (otherNextHops c.1 c.2).length))
          ++ noncesOf (probeCalls (m + (otherNextHops c.1 c.2).length) cs).1 := by
      simp [noncesOf]
    rw [hsplit, noncesOf_zipWith_range, hn]
    rw [Nat.add_comm (otherNextHops c.1 c.2).length (probeCount cs)]
    simp

/-- With terms that are not negative and a total of at most 1.1, neither assertion of
the loop of lines 216-224 fails, whatever `r` is. -/
theorem chooseLoop_no_assert (info : MtForwardingInfo) (P r : ℚ) (l : List NextHop) :
    ∀ (acc : ℚ) (i0 : Nat),
      (∀ x ∈ l, 0 ≤ share info x / P) → 0 ≤ acc →
      acc + (l.map (fun x => share info x / P)).sum ≤ 11 / 10 →
      ∀ line : Nat, chooseLoop info P r acc i0 l ≠ LoopExit.assertFailed line := by
  induction l with
  | nil =>
    intro acc i0 _ _ _ line
    simp [chooseLoop]
  | cons x xs ih =>
    intro acc i0 hnn hacc hbound line
    have hx : 0 ≤ share info x / P := hnn x (List.mem_cons_self _ _)
    have hxs : ∀ y ∈ xs, 0 ≤ share info y / P :=
      fun y hy => hnn y (List.mem_cons_of_mem _ hy)
    have hrest : 0 ≤ (xs.map (fun y => share info y / P)).sum := by
      apply List.sum_nonneg
      intro z hz
      obtain ⟨y, hy, rfl⟩ := List.mem_map.mp hz
      exact hxs y hy
    simp only [List.map_cons, List.sum_cons] at hbound
    have h0 : 0 ≤ acc + share info x / P := by linarith
    have h1 : acc + share info x / P ≤ 11 / 10 := by linarith
    have hstep : chooseLoop info P r acc i0 (x :: xs)
        = if r < acc + share info x / P then LoopExit.broke i0 x
          else chooseLoop info P r (acc + share info x / P) (i0 + 1) xs := by
      simp only [chooseLoop, share]
      simp only [share] at h0 h1
      simp [h0, h1]
    rw [hstep]
    by_cases hr : r < acc + share info x / P
    · simp [hr]
    · simp only [hr, if_false]
      exact ih _ _ hxs h0 (by linarith) line

/-- Multi-link branch with `percSum` not positive: the assertion of line 206 fails and
nothing is sent. -/
theorem forwardInterest_multi_zero (s : PconStrategy) (info : MtForwardingInfo)
    (a : Arrival) (r : ℚ)
    (hguard : suppresses a = false) (htwo : 2 ≤ (eligibleSet a).length)
    (hsum : ¬ (0 < shareSum info (eligibleSet a))) :
    forwardInterest s info a r
      = { exit := Exit.assertFailed 206, sent := [], strategy := s } := by
  unfold forwardInterest
  rw [collectEligible_eq]
  cases hl : a.nexthops with
  | nil => simp [eligibleSet, hl] at htwo
  | cons front rest =>
    cases he : eligibleSet a with
    | nil => simp [he] at htwo
    | cons e1 es =>
      cases es with
      | nil => simp [he] at htwo
      | cons e2 es =>
        rw [he] at hsum
        have hsum2 : shareSum info (e1 :: e2 :: es) ≤ 0 := not_lt.mp hsum
        simp [hguard, hsum2]

/-- Multi-link branch with `percSum` positive and no failing assertion in the loop:
the call completes. -/
theorem forwardInterest_multi_completed (s : PconStrategy) (info : MtForwardingInfo)
    (a : Arrival) (r : ℚ)
    (hguard : suppresses a = false) (htwo : 2 ≤ (eligibleSet a).length)
    (hsum : 0 < shareSum info (eligibleSet a))
    (hloop : ∀ line : Nat,
      chooseLoop info (shareSum info (eligibleSet a)) r 0 0 (eligibleSet a)
        ≠ LoopExit.assertFailed line) :
    (forwardInterest s info a r).exit = Exit.completed := by
  unfold forwardInterest
  rw [collectEligible_eq]
  cases hl : a.nexthops with
  | nil => simp [eligibleSet, hl] at htwo
  | cons front rest =>
    cases he : eligibleSet a with
    | nil => simp [he] at htwo
    | cons e1 es =>
      cases es with
      | nil => simp [he] at htwo
      | cons e2 es =>
        rw [he] at hsum hloop
        cases hc : chooseLoop info (shareSum info (e1 :: e2 :: es)) r 0 0 (e1 :: e2 :: es) with
        | assertFailed line => exact absurd hc (hloop line)
        | broke i nh => simp [hguard, hsum, hc, exit_sendAndProbe]
        | fellThrough => simp [hguard, hsum, hc, exit_sendAndProbe]

/-- For a request that passes the guard with at least two eligible next hops whose
shares are not negative, the call ends in a failed assertion exactly when `percSum` is
not positive, and then at line 206 with nothing sent. -/
theorem forwardInterest_fault_iff (s : PconStrategy) (info : MtForwardingInfo)
    (a : Arrival) (r : ℚ)
    (hguard : suppresses a = false) (htwo : 2 ≤ (eligibleSet a).length)
    (hnonneg : ∀ nh ∈ eligibleSet a, 0 ≤ share info nh) :
    ((∃ line : Nat, (forwardInterest s info a r).exit = Exit.assertFailed line)
        ↔ ¬ (0 < shareSum info (eligibleSet a)))
      ∧ (¬ (0 < shareSum info (eligibleSet a)) →
          (forwardInterest s info a r).sent = []
            ∧ (forwardInterest s info a r).exit = Exit.assertFailed 206)
      ∧ (0 < shareSum info (eligibleSet a) →
          (forwardInterest s info a r).exit = Exit.completed) := by
  have hzero : ¬ (0 < shareSum info (eligibleSet a)) →
      (forwardInterest s info a r).sent = []
        ∧ (forwardInterest s info a r).exit = Exit.assertFailed 206 := by
    intro h
    rw [forwardInterest_multi_zero s info a r hguard htwo h]
    exact ⟨rfl, rfl⟩
  have hpos : 0 < shareSum info (eligibleSet a) →
      (forwardInterest s info a r).exit = Exit.completed := by
    intro hsum
    obtain ⟨hterm, htotal⟩ := normalised_terms info (eligibleSet a) hnonneg hsum
    apply forwardInterest_multi_completed s info a r hguard htwo hsum
    apply chooseLoop_no_assert info _ r (eligibleSet a) 0 0 hterm (le_refl _)
    rw [htotal]; norm_num
  refine ⟨⟨?_, fun h => ⟨206, (hzero h).2⟩⟩, hzero, hpos⟩
  rintro ⟨line, hline⟩ hsum
  rw [hpos hsum] at hline
  simp at hline

theorem initialPerc_nonneg (b : Bool) (lowestId localFaceCount size : Nat) (n : NextHop) :
    0 ≤ initialPerc b lowestId localFaceCount size n := by
  unfold initialPerc
  split
  · split <;> norm_num
  · positivity

theorem initialPerc_le_one (b : Bool) (lowestId localFaceCount size : Nat) (n : NextHop)
    (hsize : 0 < size) : initialPerc b lowestId localFaceCount size n ≤ 1 := by
  unfold initialPerc
  split
  · split <;> norm_num
  · have h1 : (1 : ℚ) ≤ (size : ℚ) := by exact_mod_cast hsize
    rw [div_le_one (by linarith)]
    exact h1

theorem mem_eligibleSet (a : Arrival) (n : NextHop) (h : n ∈ eligibleSet a) :
    n ∈ a.nexthops :=
  (List.mem_filter.mp h).1

/-- The shares `initializeForwMap` has stored for the next hops are not negative. -/
theorem share_initializeForwMap_nonneg (s : PconStrategy) (info : MtForwardingInfo)
    (a : Arrival) : ∀ nh ∈ eligibleSet a,
      0 ≤ share (initializeForwMap s info a.nexthops) nh := by
  intro nh hnh
  unfold share
  rw [getforwPerc_initializeForwMap s info a.nexthops nh (mem_eligibleSet a nh hnh)]
  exact initialPerc_nonneg _ _ _ _ _

/-- The record an entry holds after `afterReceiveInterest` is the record the selector
read: the one `initializeForwMap` left at line 135. -/
theorem afterReceiveInterest_record (s : PconStrategy) (entry : MeasurementsEntry)
    (a : Arrival) (info : MtForwardingInfo)
    (h : (afterReceiveInterest s entry a).1.info = some info) :
    info = initializeForwMap s (getMeasurementsEntryInfo entry).1 a.nexthops := by
  rw [afterReceiveInterest_info] at h
  exact (Option.some.inj h).symm

/-- Under the equal-split policy and without a local-scope next hop every next hop is
stored with the share `1/n`. -/
theorem equal_split_share (s : PconStrategy) (info : MtForwardingInfo)
    (nexthops : List NextHop) (hpolicy : s.INIT_SHORTEST_PATH = false)
    (hlocal : ∀ n ∈ nexthops, n.face.scope ≠ FaceScope.FACE_SCOPE_LOCAL) :
    ∀ n ∈ nexthops,
      (initializeForwMap s info nexthops).getforwPerc n.face.id
        = 1 / (nexthops.length : ℚ) := by
  intro n hn
  rw [getforwPerc_initializeForwMap s info nexthops n hn, scanNextHops_snd]
  have hcount : (nexthops.filter
      (fun n => decide (n.face.scope = FaceScope.FACE_SCOPE_LOCAL))).length = 0 := by
    rw [List.length_eq_zero, List.filter_eq_nil_iff]
    intro m hm
    simpa using hlocal m hm
  simp [initialPerc, hcount, hpolicy]

/-- Under the equal-split policy the shares of a non-empty eligible set, as
`initializeForwMap` leaves them, sum to a positive value. -/
theorem shareSum_equal_split_pos (s : PconStrategy) (info : MtForwardingInfo) (a : Arrival)
    (hpolicy : s.INIT_SHORTEST_PATH = false)
    (hlocal : ∀ n ∈ a.nexthops, n.face.scope ≠ FaceScope.FACE_SCOPE_LOCAL)
    (hne : eligibleSet a ≠ []) :
    0 < shareSum (initializeForwMap s info a.nexthops) (eligibleSet a) := by
  unfold shareSum
  apply List.sum_pos
  · intro x hx
    obtain ⟨nh, hnh, rfl⟩ := List.mem_map.mp hx
    have hmem := mem_eligibleSet a nh hnh
    have hlen : 0 < a.nexthops.length := List.length_pos_of_mem hmem
    unfold share
    rw [(equal_split_share s info a.nexthops hpolicy hlocal) nh hmem]
    have : (0 : ℚ) < (a.nexthops.length : ℚ) := by exact_mod_cast hlen
    positivity
  · simpa using hne

/-- Under the shortest-path-exclusive policy, when a next hop with the lowest link-id,
at most `INT_MAX`, is eligible, it holds share 1 and the shares of the eligible set sum
to a positive value. -/
theorem shareSum_shortest_path_pos (s : PconStrategy) (info : MtForwardingInfo) (a : Arrival)
    (m : NextHop)
    (hpolicy : s.INIT_SHORTEST_PATH = true
      ∨ ∃ n ∈ a.nexthops, n.face.scope = FaceScope.FACE_SCOPE_LOCAL)
    (hm : m ∈ eligibleSet a) (hrange : m.face.id ≤ INT_MAX)
    (hmin : ∀ n ∈ a.nexthops, m.face.id ≤ n.face.id) :
    m.face.id = (scanNextHops a.nexthops).1
      ∧ share (initializeForwMap s info a.nexthops) m = 1
      ∧ 0 < shareSum (initializeForwMap s info a.nexthops) (eligibleSet a) := by
  have hmem := mem_eligibleSet a m hm
  obtain ⟨m2, hm2, hlow, hmin2⟩ := scanNextHops_lowest a.nexthops ⟨m, hmem, hrange⟩
  have hid : m.face.id = (scanNextHops a.nexthops).1 := by
    rw [← hlow]
    exact Nat.le_antisymm (hmin m2 hm2) (hmin2 m hmem)
  have hbranch : (scanNextHops a.nexthops).2 > 0 ∨ s.INIT_SHORTEST_PATH = true := by
    rcases hpolicy with h | ⟨n, hn, hloc⟩
    · exact Or.inr h
    · left
      rw [scanNextHops_snd]
      exact List.length_pos_of_mem (List.mem_filter.mpr ⟨hn, by simpa using hloc⟩)
  have hone : share (initializeForwMap s info a.nexthops) m = 1 := by
    unfold share
    rw [getforwPerc_initializeForwMap s info a.nexthops m hmem]
    simp [initialPerc, hbranch, hid]
  refine ⟨hid, hone, ?_⟩
  have hle : share (initializeForwMap s info a.nexthops) m
      ≤ shareSum (initializeForwMap s info a.nexthops) (eligibleSet a) := by
    unfold shareSum
    apply List.single_le_sum
    · intro x hx
      obtain ⟨nh, hnh, rfl⟩ := List.mem_map.mp hx
      exact share_initializeForwMap_nonneg s info a nh hnh
    · exact List.mem_map.mpr ⟨m, hm, rfl⟩
  rw [hone] at hle
  linarith

/-- With the shortest-path-exclusive seeding of line 135, a request that passes the
guard with at least two eligible next hops, among them one with the lowest link-id (at
most `INT_MAX`), is sent on a next hop with that link-id whenever `rand()` returns less
than `RAND_MAX`. -/
theorem afterReceiveInterest_shortest_path_lowest (s : PconStrategy)
    (entry : MeasurementsEntry) (a : Arrival) (m : NextHop)
    (hpolicy : s.INIT_SHORTEST_PATH = true)
    (hguard : suppresses a = false) (htwo : 2 ≤ (eligibleSet a).length)
    (hm : m ∈ eligibleSet a) (hrange : m.face.id ≤ INT_MAX)
    (hmin : ∀ n ∈ a.nexthops, m.face.id ≤ n.face.id)
    (hrand : a.rand < RAND_MAX) :
    ∃ nh ∈ eligibleSet a, nh.face.id = m.face.id
      ∧ (afterReceiveInterest s entry a).2.sent.head? = some (nh.face, a.interest) := by
  obtain ⟨hid, _, hpos⟩ := shareSum_shortest_path_pos s (getMeasurementsEntryInfo entry).1 a m
    (Or.inl hpolicy) hm hrange hmin
  have hnonneg := share_initializeForwMap_nonneg s (getMeasurementsEntryInfo entry).1 a
  obtain ⟨hterm, htotal⟩ := normalised_terms _ (eligibleSet a) hnonneg hpos
  have hmaxpos : (0 : ℚ) < (RAND_MAX : ℚ) := by
    have : 0 < RAND_MAX := by omega
    exact_mod_cast this
  have hr0 : (0 : ℚ) ≤ (a.rand : ℚ) / (RAND_MAX : ℚ) :=
    div_nonneg (by exact_mod_cast Nat.zero_le _) (le_of_lt hmaxpos)
  have hr1 : (a.rand : ℚ) / (RAND_MAX : ℚ) < 1 := by
    rw [div_lt_one hmaxpos]
    exact_mod_cast hrand
  have hbound : (0 : ℚ) + ((eligibleSet a).map (fun x =>
      share (initializeForwMap s (getMeasurementsEntryInfo entry).1 a.nexthops) x
        / shareSum (initializeForwMap s (getMeasurementsEntryInfo entry).1 a.nexthops)
            (eligibleSet a))).sum ≤ 11 / 10 := by
    rw [htotal]; norm_num
  have hlt : (a.rand : ℚ) / (RAND_MAX : ℚ) < (0 : ℚ) + ((eligibleSet a).map (fun x =>
      share (initializeForwMap s (getMeasurementsEntryInfo entry).1 a.nexthops) x
        / shareSum (initializeForwMap s (getMeasurementsEntryInfo entry).1 a.nexthops)
            (eligibleSet a))).sum := by
    rw [htotal]; linarith
  obtain ⟨j, nh, hloop⟩ := chooseLoop_breaks _ _ _ (eligibleSet a) 0 0 hterm (le_refl _) hr0
    hbound hlt
  obtain ⟨k, _, hget, hle, hlt2⟩ :=
    (chooseLoop_broke_iff _ _ _ (eligibleSet a) 0 0 j nh hterm (le_refl _) hr0 hbound).mp hloop
  have hnh : nh ∈ eligibleSet a := List.getElem?_mem hget
  rw [runningSum_succ _ _ (eligibleSet a) k nh hget] at hlt2
  have hsharepos : share (initializeForwMap s (getMeasurementsEntryInfo entry).1 a.nexthops) nh
      ≠ 0 := by
    intro h0
    rw [h0, zero_div] at hlt2
    linarith
  have hnhid : nh.face.id = (scanNextHops a.nexthops).1 := by
    by_contra hne
    apply hsharepos
    unfold share
    rw [getforwPerc_initializeForwMap s _ a.nexthops nh (mem_eligibleSet a nh hnh)]
    simp [initialPerc, hpolicy, hne]
  refine ⟨nh, hnh, hnhid.trans hid.symm, ?_⟩
  rw [afterReceiveInterest_snd,
    forwardInterest_multi_broke s _ a _ j nh hguard htwo hpos hloop]
  exact sent_head_sendAndProbe _ a _ nh

theorem mem_storePerc (m : List (FaceId × ℚ)) (id : FaceId) (p : ℚ) :
    ∀ kv ∈ storePerc m id p, kv ∈ m ∨ kv = (id, p) := by
  induction m with
  | nil =>
    intro kv hkv
    simp [storePerc] at hkv
    exact Or.inr hkv
  | cons x xs ih =>
    obtain ⟨k, v⟩ := x
    intro kv hkv
    by_cases hk : k = id
    · simp only [storePerc, hk, if_true, List.mem_cons] at hkv
      rcases hkv with h | h
      · exact Or.inr h
      · exact Or.inl (List.mem_cons_of_mem _ h)
    · simp only [storePerc, hk, if_false, List.mem_cons] at hkv
      rcases hkv with h | h
      · exact Or.inl (by rw [h]; exact List.mem_cons_self _ _)
      · rcases ih kv h with h2 | h2
        · exact Or.inl (List.mem_cons_of_mem _ h2)
        · exact Or.inr h2

theorem lookupPerc_mem_or_zero (m : List (FaceId × ℚ)) (id : FaceId) :
    lookupPerc m id = 0 ∨ (id, lookupPerc m id) ∈ m := by
  induction m with
  | nil => exact Or.inl rfl
  | cons x xs ih =>
    obtain ⟨k, v⟩ := x
    by_cases hk : k = id
    · right
      simp [lookupPerc, hk]
    · rcases ih with h | h
      · left
        simp [lookupPerc, hk, h]
      · right
        simp only [lookupPerc, hk, if_false]
        exact List.mem_cons_of_mem _ h

/-- A share read from a record whose shares lie in `[0,1]` lies in `[0,1]`. -/
theorem getforwPerc_unit (info : MtForwardingInfo) (h : sharesInUnitInterval info)
    (id : FaceId) : 0 ≤ info.getforwPerc id ∧ info.getforwPerc id ≤ 1 := by
  unfold MtForwardingInfo.getforwPerc
  rcases lookupPerc_mem_or_zero info.forwPercMap id with h0 | hmem
  · rw [h0]; norm_num
  · exact h _ hmem

/-- Storing a share of `[0,1]` keeps all shares in `[0,1]`. -/
theorem sharesInUnitInterval_setforwPerc (info : MtForwardingInfo)
    (h : sharesInUnitInterval info) (id : FaceId) (p : ℚ) (hp0 : 0 ≤ p) (hp1 : p ≤ 1) :
    sharesInUnitInterval (info.setforwPerc id p) := by
  intro kv hkv
  rcases mem_storePerc info.forwPercMap id p kv hkv with h1 | h1
  · exact h kv h1
  · rw [h1]; exact ⟨hp0, hp1⟩

theorem sharesInUnitInterval_foldl (f : NextHop → ℚ) (l : List NextHop)
    (hf : ∀ n ∈ l, 0 ≤ f n ∧ f n ≤ 1) :
    ∀ info : MtForwardingInfo, sharesInUnitInterval info →
      sharesInUnitInterval (l.foldl (fun acc n => acc.setforwPerc n.face.id (f n)) info) := by
  induction l with
  | nil => intro info h; exact h
  | cons x xs ih =>
    intro info h
    simp only [List.foldl_cons]
    apply ih (fun n hn => hf n (List.mem_cons_of_mem _ hn))
    exact sharesInUnitInterval_setforwPerc info h _ _
      (hf x (List.mem_cons_self _ _)).1 (hf x (List.mem_cons_self _ _)).2

/-- The function `initializeForwMap` keeps all shares in `[0,1]`. -/
theorem sharesInUnitInterval_initializeForwMap (s : PconStrategy) (info : MtForwardingInfo)
    (nexthops : List NextHop) (h : sharesInUnitInterval info) :
    sharesInUnitInterval (initializeForwMap s info nexthops) := by
  unfold initializeForwMap
  apply sharesInUnitInterval_foldl _ nexthops _ info h
  intro n hn
  exact ⟨initialPerc_nonneg _ _ _ _ _,
    initialPerc_le_one _ _ _ _ _ (List.length_pos_of_mem hn)⟩

/-- Lines 291-321 either leave the record alone or lower the share of the arrival link
by `CHANGE_PER_MARK` times that share. -/
theorem beforeSatisfyInterestOn_eq (s : PconStrategy) (info : MtForwardingInfo)
    (inFace : Face) (congMark : Int) :
    beforeSatisfyInterestOn s info inFace congMark = info
      ∨ beforeSatisfyInterestOn s info inFace congMark
          = reduceFwPerc info inFace.id (s.CHANGE_PER_MARK * info.getforwPerc inFace.id) := by
  by_cases h1 : info.getFaceCount > 1
      ∧ ¬ (inFace.scope = FaceScope.FACE_SCOPE_LOCAL)
      ∧ inFace.localUri ≠ "contentstore://"
  · by_cases h2 : congMark = 0
    · left
      simp [beforeSatisfyInterestOn, h2]
    · right
      simp [beforeSatisfyInterestOn, h1, h2]
  · left
    simp only [beforeSatisfyInterestOn, h1, if_false]

/-- With `CHANGE_PER_MARK` in `[0,1]`, lines 291-321 keep all shares in `[0,1]` and
leave the share of the arrival link between 0 and its old value. -/
theorem beforeSatisfyInterestOn_unit (s : PconStrategy) (info : MtForwardingInfo)
    (inFace : Face) (congMark : Int)
    (hc0 : 0 ≤ s.CHANGE_PER_MARK) (hc1 : s.CHANGE_PER_MARK ≤ 1)
    (h : sharesInUnitInterval info) :
    sharesInUnitInterval (beforeSatisfyInterestOn s info inFace congMark)
      ∧ 0 ≤ (beforeSatisfyInterestOn s info inFace congMark).getforwPerc inFace.id
      ∧ (beforeSatisfyInterestOn s info inFace congMark).getforwPerc inFace.id
          ≤ info.getforwPerc inFace.id := by
  obtain ⟨hs0, hs1⟩ := getforwPerc_unit info h inFace.id
  have hnew0 : 0 ≤ info.getforwPerc inFace.id
      - s.CHANGE_PER_MARK * info.getforwPerc inFace.id := by nlinarith
  have hnew1 : info.getforwPerc inFace.id
      - s.CHANGE_PER_MARK * info.getforwPerc inFace.id ≤ info.getforwPerc inFace.id := by
    nlinarith
  rcases beforeSatisfyInterestOn_eq s info inFace congMark with heq | heq
  · rw [heq]
    exact ⟨h, hs0, le_refl _⟩
  · rw [heq]
    refine ⟨?_, ?_, ?_⟩
    · exact sharesInUnitInterval_setforwPerc info h _ _ hnew0 (by linarith)
    · simp only [reduceFwPerc, getforwPerc_setforwPerc_same]; exact hnew0
    · simp only [reduceFwPerc, getforwPerc_setforwPerc_same]; exact hnew1

/-- A call of `afterReceiveInterest` leaves the configuration of the strategy object
as it was. -/
theorem afterReceiveInterestOn_sameConfiguration (s : PconStrategy)
    (info : MtForwardingInfo) (a : Arrival) :
    sameConfiguration s (afterReceiveInterestOn s info a).2.strategy := by
  unfold afterReceiveInterestOn
  simp only []
  cases hs : suppresses a with
  | true =>
    rw [forwardInterest_suppressed s _ a _ hs]
    exact sameConfiguration_refl s
  | false =>
    rcases forwardInterest_cases s (initializeForwMap s info a.nexthops) a
      ((a.rand : ℚ) / (RAND_MAX : ℚ)) hs with ⟨_, _, _, hconf⟩ | ⟨s1, nh, hconf, _, heq⟩
    · exact hconf
    · rw [heq]
      unfold sendAndProbe
      split
      · exact hconf
      · exact hconf

/-- Shares in `[0,1]` stay in `[0,1]` over any sequence of request and response
arrivals, when `CHANGE_PER_MARK` lies in `[0,1]`. -/
theorem sharesInUnitInterval_handleEvents (events : List Event) :
    ∀ (s : PconStrategy) (info : MtForwardingInfo),
      0 ≤ s.CHANGE_PER_MARK → s.CHANGE_PER_MARK ≤ 1 → sharesInUnitInterval info →
      sharesInUnitInterval (handleEvents s info events).2 := by
  induction events with
  | nil => intro s info _ _ h; exact h
  | cons e es ih =>
    intro s info hc0 hc1 h
    cases e with
    | request a =>
      have hinit : sharesInUnitInterval (afterReceiveInterestOn s info a).1 :=
        sharesInUnitInterval_initializeForwMap s info a.nexthops h
      have hconf := afterReceiveInterestOn_sameConfiguration s info a
      simp only [handleEvents]
      split
      · apply ih _ _ _ _ hinit
        · rw [hconf.2.1]; exact hc0
        · rw [hconf.2.1]; exact hc1
      · exact hinit
    | response inFace congMark =>
      simp only [handleEvents]
      exact ih s _ hc0 hc1 (beforeSatisfyInterestOn_unit s info inFace congMark hc0 hc1 h).1

/-- Multi-link branch when an assertion of the loop fails: nothing is sent. -/
theorem forwardInterest_multi_assert (s : PconStrategy) (info : MtForwardingInfo)
    (a : Arrival) (r : ℚ) (line : Nat)
    (hguard : suppresses a = false) (htwo : 2 ≤ (eligibleSet a).length)
    (hsum : 0 < shareSum info (eligibleSet a))
    (hloop : chooseLoop info (shareSum info (eligibleSet a)) r 0 0 (eligibleSet a)
      = LoopExit.assertFailed line) :
    forwardInterest s info a r
      = { exit := Exit.assertFailed line, sent := [],
          strategy :=
            if a.now ≥ s.m_lastFWWrite + TIME_BETWEEN_FW_WRITE then
              { s with m_lastFWWrite := a.now } else s } := by
  unfold forwardInterest
  rw [collectEligible_eq]
  cases hl : a.nexthops with
  | nil => simp [eligibleSet, hl] at htwo
  | cons front rest =>
    cases he : eligibleSet a with
    | nil => simp [he] at htwo
    | cons e1 es =>
      cases es with
      | nil => simp [he] at htwo
      | cons e2 es =>
        rw [he] at hloop hsum
        simp [hguard, hsum, hloop]

/-- Multi-link branch when the loop ends without a `break`: the interest is sent on
`getNextHops().front()`, the value `outNH` got at line 174. -/
theorem forwardInterest_multi_fellThrough (s : PconStrategy) (info : MtForwardingInfo)
    (a : Arrival) (r : ℚ) (front : NextHop) (rest : List NextHop)
    (hguard : suppresses a = false) (hnexthops : a.nexthops = front :: rest)
    (htwo : 2 ≤ (eligibleSet a).length)
    (hsum : 0 < shareSum info (eligibleSet a))
    (hloop : chooseLoop info (shareSum info (eligibleSet a)) r 0 0 (eligibleSet a)
      = LoopExit.fellThrough) :
    forwardInterest s info a r
      = sendAndProbe
          (if a.now ≥ s.m_lastFWWrite + TIME_BETWEEN_FW_WRITE then
            { s with m_lastFWWrite := a.now } else s) a r front := by
  unfold forwardInterest
  rw [collectEligible_eq]
  cases he : eligibleSet a with
  | nil => simp [he] at htwo
  | cons e1 es =>
    cases es with
    | nil => simp [he] at htwo
    | cons e2 es =>
      rw [he] at hloop hsum
      simp [hguard, hsum, hloop, hnexthops]

/-- What a call does once the duplicate guard is passed and the next-hop list is not
empty: it runs the eligibility filter and then, by the size of the eligible set,
returns blocked, sends on the only eligible next hop, fails the assertion of line 206,
or runs the loop of lines 216-224 and sends on the next hop the loop left in `outNH`. -/
theorem forwardInterest_after_guard (s : PconStrategy) (info : MtForwardingInfo)
    (a : Arrival) (r : ℚ) (front : NextHop) (rest : List NextHop)
    (hguard : suppresses a = false) (hnexthops : a.nexthops = front :: rest) :
    (eligibleSet a = [] →
        forwardInterest s info a r = { exit := Exit.blocked, sent := [], strategy := s })
      ∧ (∀ nh : NextHop, eligibleSet a = [nh] →
          forwardInterest s info a r = sendAndProbe s a r nh)
      ∧ (2 ≤ (eligibleSet a).length → ¬ (0 < shareSum info (eligibleSet a)) →
          forwardInterest s info a r
            = { exit := Exit.assertFailed 206, sent := [], strategy := s })
      ∧ (2 ≤ (eligibleSet a).length → 0 < shareSum info (eligibleSet a) →
          (∀ line : Nat,
              chooseLoop info (shareSum info (eligibleSet a)) r 0 0 (eligibleSet a)
                = LoopExit.assertFailed line →
              forwardInterest s info a r
                = { exit := Exit.assertFailed line, sent := [],
                    strategy :=
                      if a.now ≥ s.m_lastFWWrite + TIME_BETWEEN_FW_WRITE then
                        { s with m_lastFWWrite := a.now } else s })
            ∧ (∀ (j : Nat) (nh : NextHop),
                chooseLoop info (shareSum info (eligibleSet a)) r 0 0 (eligibleSet a)
                  = LoopExit.broke j nh →
                forwardInterest s info a r
                  = sendAndProbe
                      (if a.now ≥ s.m_lastFWWrite + TIME_BETWEEN_FW_WRITE then
                        { s with m_lastFWWrite := a.now } else s) a r nh)
            ∧ (chooseLoop info (shareSum info (eligibleSet a)) r 0 0 (eligibleSet a)
                  = LoopExit.fellThrough →
                forwardInterest s info a r
                  = sendAndProbe
                      (if a.now ≥ s.m_lastFWWrite + TIME_BETWEEN_FW_WRITE then
                        { s with m_lastFWWrite := a.now } else s) a r front)) := by
  have hne : a.nexthops ≠ [] := by rw [hnexthops]; simp
  refine ⟨fun hel => forwardInterest_blocked s info a r hguard hne hel,
    fun nh hel => forwardInterest_single s info a r nh hguard hel,
    fun htwo hsum => forwardInterest_multi_zero s info a r hguard htwo hsum,
    fun htwo hsum => ⟨?_, ?_, ?_⟩⟩
  · intro line hloop
    exact forwardInterest_multi_assert s info a r line hguard htwo hsum hloop
  · intro j nh hloop
    exact forwardInterest_multi_broke s info a r j nh hguard htwo hsum hloop
  · intro hloop
    exact forwardInterest_multi_fellThrough s info a r front rest hguard hnexthops htwo
      hsum hloop

/-- The duplicate guard of lines 146-171: `afterReceiveInterest` returns at line 169,
having sent nothing, exactly when the pending entry has a pending out-record and some
in-record was last renewed at a time that is not strictly before now; otherwise the
call runs as for the same request without a pending out-record. -/
theorem afterReceiveInterest_suppresses_iff (s : PconStrategy) (entry : MeasurementsEntry)
    (a : Arrival) :
    ((afterReceiveInterest s entry a).2.exit = Exit.suppressed
        ↔ a.pitEntry.hasPendingOutRecords = true
            ∧ ∃ rec ∈ a.pitEntry.inRecords, ¬ (rec.lastRenewed < a.now))
      ∧ ((afterReceiveInterest s entry a).2.exit = Exit.suppressed →
          (afterReceiveInterest s entry a).2.sent = [])
      ∧ (¬ (a.pitEntry.hasPendingOutRecords = true
              ∧ ∃ rec ∈ a.pitEntry.inRecords, ¬ (rec.lastRenewed < a.now)) →
          (afterReceiveInterest s entry a).2
            = (afterReceiveInterest s entry
                { a with pitEntry := ⟨false, a.pitEntry.inRecords⟩ }).2) := by
  simp only [afterReceiveInterest_snd]
  refine ⟨?_, ?_, ?_⟩
  · rw [forwardInterest_exit_suppressed_iff, suppresses_iff]
  · intro h
    rw [forwardInterest_exit_suppressed_iff] at h
    rw [forwardInterest_suppressed _ _ a _ h]
  · intro h
    rw [← suppresses_iff] at h
    have hs : suppresses a = false := by
      cases hc : suppresses a with
      | true => exact absurd hc h
      | false => rfl
    exact forwardInterest_guard_passed _ _ a _ hs

/-! ## The claims -/

/-- C1. For a request that passes the duplicate guard with at least two eligible next
hops, shares that are not negative, `percSum > 0` and `r` in `[0,1)`, the interest is
sent on the first eligible next hop, in next-hop list order, at which the running sum
of `share/percSum` exceeds `r`. The shares are those of the record the selector
reads, so the statement covers every call of `afterReceiveInterest`. -/
theorem forwardInterest_first_exceeding (s : PconStrategy) (info : MtForwardingInfo)
    (a : Arrival) (r : ℚ)
    (hguard : suppresses a = false) (htwo : 2 ≤ (eligibleSet a).length)
    (hnonneg : ∀ nh ∈ eligibleSet a, 0 ≤ share info nh)
    (hsum : 0 < shareSum info (eligibleSet a))
    (hr0 : 0 ≤ r) (hr1 : r < 1) :
    ∃ (i : Nat) (nh : NextHop),
      (eligibleSet a)[i]? = some nh
        ∧ r < runningSum info (shareSum info (eligibleSet a)) (eligibleSet a) (i + 1)
        ∧ (∀ j, j < i →
            ¬ r < runningSum info (shareSum info (eligibleSet a)) (eligibleSet a) (j + 1))
        ∧ (forwardInterest s info a r).sent.head? = some (nh.face, a.interest)
        ∧ (forwardInterest s info a r).exit = Exit.completed := by
  obtain ⟨hterm, htotal⟩ := normalised_terms info (eligibleSet a) hnonneg hsum
  have hbound : (0 : ℚ) + ((eligibleSet a).map
      (fun x => share info x / shareSum info (eligibleSet a))).sum ≤ 11 / 10 := by
    rw [htotal]; norm_num
  have hlt : r < (0 : ℚ) + ((eligibleSet a).map
      (fun x => share info x / shareSum info (eligibleSet a))).sum := by
    rw [htotal]; linarith
  obtain ⟨j, nh, hloop⟩ := chooseLoop_breaks info _ r (eligibleSet a) 0 0 hterm
    (le_refl _) hr0 hbound hlt
  obtain ⟨k, hk, hget, hle, hlt2⟩ :=
    (chooseLoop_broke_iff info _ r (eligibleSet a) 0 0 j nh hterm (le_refl _) hr0 hbound).mp
      hloop
  refine ⟨k, nh, hget, by linarith, ?_, ?_, ?_⟩
  · intro i hi hcontra
    have hmono : runningSum info (shareSum info (eligibleSet a)) (eligibleSet a) (i + 1)
        ≤ runningSum info (shareSum info (eligibleSet a)) (eligibleSet a) k :=
      runningSum_mono info _ (eligibleSet a) hterm (i + 1) k (by omega)
    linarith
  · rw [forwardInterest_multi_broke s info a r j nh hguard htwo hsum hloop]
    exact sent_head_sendAndProbe _ a r nh
  · rw [forwardInterest_multi_broke s info a r j nh hguard htwo hsum hloop]
    exact exit_sendAndProbe _ a r nh

/-- Witness for C1: shares 0.7 and 0.3 in this order give the first next hop for
`r = 0.5` and the second for `r = 0.85`. -/
theorem forwardInterest_first_exceeding_witness :
    suppresses arrivalFromConsumer = false
      ∧ 2 ≤ (eligibleSet arrivalFromConsumer).length
      ∧ (∀ nh ∈ eligibleSet arrivalFromConsumer,
          0 ≤ share ⟨[(1, 7 / 10), (2, 3 / 10)]⟩ nh)
      ∧ 0 < shareSum ⟨[(1, 7 / 10), (2, 3 / 10)]⟩ (eligibleSet arrivalFromConsumer)
      ∧ (0 : ℚ) ≤ 1 / 2 ∧ (1 / 2 : ℚ) < 1
      ∧ (∃ (i : Nat) (nh : NextHop),
          (eligibleSet arrivalFromConsumer)[i]? = some nh
            ∧ 1 / 2 < runningSum ⟨[(1, 7 / 10), (2, 3 / 10)]⟩
                (shareSum ⟨[(1, 7 / 10), (2, 3 / 10)]⟩ (eligibleSet arrivalFromConsumer))
                (eligibleSet arrivalFromConsumer) (i + 1)
            ∧ (∀ j, j < i →
                ¬ 1 / 2 < runningSum ⟨[(1, 7 / 10), (2, 3 / 10)]⟩
                  (shareSum ⟨[(1, 7 / 10), (2, 3 / 10)]⟩ (eligibleSet arrivalFromConsumer))
                  (eligibleSet arrivalFromConsumer) (j + 1))
            ∧ (forwardInterest PconStrategy.default ⟨[(1, 7 / 10), (2, 3 / 10)]⟩
                arrivalFromConsumer (1 / 2)).sent.head? = some (nh.face, ⟨"/x", 7⟩)
            ∧ (forwardInterest PconStrategy.default ⟨[(1, 7 / 10), (2, 3 / 10)]⟩
                arrivalFromConsumer (1 / 2)).exit = Exit.completed)
      ∧ (forwardInterest PconStrategy.default ⟨[(1, 7 / 10), (2, 3 / 10)]⟩
          arrivalFromConsumer (1 / 2)).sent.head? = some (faceB, ⟨"/x", 7⟩)
      ∧ (forwardInterest PconStrategy.default ⟨[(1, 7 / 10), (2, 3 / 10)]⟩
          arrivalFromConsumer (85 / 100)).sent.head? = some (faceC, ⟨"/x", 7⟩) := by
  have hel : eligibleSet arrivalFromConsumer = [⟨faceB⟩, ⟨faceC⟩] := by
    simp [eligibleSet, arrivalFromConsumer, faceB, faceC]
  have hnn : ∀ nh ∈ eligibleSet arrivalFromConsumer,
      0 ≤ share ⟨[(1, 7 / 10), (2, 3 / 10)]⟩ nh := by
    rw [hel]
    intro nh hnh
    simp only [List.mem_cons, List.mem_singleton, List.not_mem_nil, or_false] at hnh
    rcases hnh with h | h <;> subst h <;>
      norm_num [share, MtForwardingInfo.getforwPerc, lookupPerc, faceB, faceC]
  have hsum : 0 < shareSum ⟨[(1, 7 / 10), (2, 3 / 10)]⟩ (eligibleSet arrivalFromConsumer) := by
    rw [hel]
    norm_num [shareSum, share, MtForwardingInfo.getforwPerc, lookupPerc, faceB, faceC]
  refine ⟨rfl, by simp [hel], hnn, hsum, by norm_num, by norm_num,
    forwardInterest_first_exceeding PconStrategy.default ⟨[(1, 7 / 10), (2, 3 / 10)]⟩
      arrivalFromConsumer (1 / 2) rfl (by simp [hel]) hnn hsum (by norm_num) (by norm_num),
    ?_, ?_⟩
  · norm_num [forwardInterest, suppresses, requestFromNewFace, collectEligible, chooseLoop,
      arrivalFromConsumer, faceA, faceB, faceC, MtForwardingInfo.getforwPerc, lookupPerc,
      sent_head_sendAndProbe]
  · norm_num [forwardInterest, suppresses, requestFromNewFace, collectEligible, chooseLoop,
      arrivalFromConsumer, faceA, faceB, faceC, MtForwardingInfo.getforwPerc, lookupPerc,
      sent_head_sendAndProbe]

/-- C2. For a list of eligible next hops (of any length, so of at least two) with shares that are not negative and
`percSum > 0`, the values `r` in `[0,1)` for which the loop of lines 216-224 breaks at
position `i` are exactly those of the half-open interval from `c(i)` to `c(i+1)`, where
`c(j)` is the sum of the first `j` shares divided by `percSum`; the interval lies in
`[0,1]`, its length is `share(i)/percSum`, and a next hop with share 0 is never
picked. -/
theorem chooseLoop_picks_iff_interval (info : MtForwardingInfo) (l : List NextHop)
    (i : Nat) (nh : NextHop)
    (hnonneg : ∀ x ∈ l, 0 ≤ share info x)
    (hsum : 0 < shareSum info l)
    (hpos : l[i]? = some nh) :
    (∀ r : ℚ, 0 ≤ r → r < 1 →
        (chooseLoop info (shareSum info l) r 0 0 l = LoopExit.broke i nh
          ↔ cumShare info (shareSum info l) l i ≤ r
              ∧ r < cumShare info (shareSum info l) l (i + 1)))
      ∧ 0 ≤ cumShare info (shareSum info l) l i
      ∧ cumShare info (shareSum info l) l (i + 1) ≤ 1
      ∧ cumShare info (shareSum info l) l (i + 1) - cumShare info (shareSum info l) l i
          = share info nh / shareSum info l
      ∧ (share info nh = 0 → ∀ r : ℚ, 0 ≤ r → r < 1 →
          chooseLoop info (shareSum info l) r 0 0 l ≠ LoopExit.broke i nh) := by
  obtain ⟨hterm, htotal⟩ := normalised_terms info l hnonneg hsum
  have hbound : (0 : ℚ) + (l.map (fun x => share info x / shareSum info l)).sum ≤ 11 / 10 := by
    rw [htotal]; norm_num
  have hiff : ∀ r : ℚ, 0 ≤ r → r < 1 →
      (chooseLoop info (shareSum info l) r 0 0 l = LoopExit.broke i nh
        ↔ cumShare info (shareSum info l) l i ≤ r
            ∧ r < cumShare info (shareSum info l) l (i + 1)) := by
    intro r hr0 _
    rw [chooseLoop_broke_iff info _ r l 0 0 i nh hterm (le_refl _) hr0 hbound]
    rw [← runningSum_eq_cumShare, ← runningSum_eq_cumShare]
    constructor
    · rintro ⟨k, hk, _, hle, hlt⟩
      have : k = i := by omega
      subst this
      exact ⟨by linarith, by linarith⟩
    · rintro ⟨hle, hlt⟩
      exact ⟨i, by omega, hpos, by linarith, by linarith⟩
  have hlen : cumShare info (shareSum info l) l (i + 1) - cumShare info (shareSum info l) l i
      = share info nh / shareSum info l := by
    rw [← runningSum_eq_cumShare, ← runningSum_eq_cumShare, runningSum_succ info _ l i nh hpos]
    ring
  refine ⟨hiff, ?_, ?_, hlen, ?_⟩
  · rw [← runningSum_eq_cumShare]
    exact runningSum_nonneg info _ l hterm i
  · rw [← runningSum_eq_cumShare]
    have := runningSum_le_sum info _ l hterm (i + 1)
    rw [htotal] at this
    exact this
  · intro hzero r hr0 hr1 hpick
    obtain ⟨hle, hlt⟩ := (hiff r hr0 hr1).mp hpick
    rw [hzero, zero_div] at hlen
    linarith

/-- Witness for C2: with shares 0.7 and 0.3, `r = 0.85` lies in the interval of the
second position. -/
theorem chooseLoop_picks_iff_interval_witness :
    (∀ x ∈ ([⟨faceB⟩, ⟨faceC⟩] : List NextHop),
        0 ≤ share ⟨[(1, 7 / 10), (2, 3 / 10)]⟩ x)
      ∧ 0 < shareSum ⟨[(1, 7 / 10), (2, 3 / 10)]⟩ [⟨faceB⟩, ⟨faceC⟩]
      ∧ ([⟨faceB⟩, ⟨faceC⟩] : List NextHop)[1]? = some ⟨faceC⟩
      ∧ chooseLoop ⟨[(1, 7 / 10), (2, 3 / 10)]⟩
          (shareSum ⟨[(1, 7 / 10), (2, 3 / 10)]⟩ [⟨faceB⟩, ⟨faceC⟩]) (85 / 100) 0 0
          [⟨faceB⟩, ⟨faceC⟩] = LoopExit.broke 1 ⟨faceC⟩ := by
  have hnn : ∀ x ∈ ([⟨faceB⟩, ⟨faceC⟩] : List NextHop),
      0 ≤ share ⟨[(1, 7 / 10), (2, 3 / 10)]⟩ x := by
    intro x hx
    simp only [List.mem_cons, List.mem_singleton, List.not_mem_nil, or_false] at hx
    rcases hx with h | h <;> subst h <;>
      norm_num [share, MtForwardingInfo.getforwPerc, lookupPerc, faceB, faceC]
  have hsum : 0 < shareSum ⟨[(1, 7 / 10), (2, 3 / 10)]⟩ [⟨faceB⟩, ⟨faceC⟩] := by
    norm_num [shareSum, share, MtForwardingInfo.getforwPerc, lookupPerc, faceB, faceC]
  refine ⟨hnn, hsum, rfl, ?_⟩
  refine ((chooseLoop_picks_iff_interval ⟨[(1, 7 / 10), (2, 3 / 10)]⟩ [⟨faceB⟩, ⟨faceC⟩] 1
    ⟨faceC⟩ hnn hsum rfl).1 (85 / 100) (by norm_num) (by norm_num)).mpr ⟨?_, ?_⟩
  · norm_num [cumShare, shareSum, share, MtForwardingInfo.getforwPerc, lookupPerc, faceB,
      faceC]
  · norm_num [cumShare, shareSum, share, MtForwardingInfo.getforwPerc, lookupPerc, faceB,
      faceC]

/-- C3. With `rand()` returning `RAND_MAX` the value `r` is 1, the loop of lines
216-224 ends without a `break`, and the request that arrived on face 3 is sent on
`outNH = getNextHops().front()`, which is face 3 itself and is not eligible. -/
theorem afterReceiveInterest_forwards_on_ineligible_front :
    (arrivalOnA RAND_MAX).rand ≤ RAND_MAX
      ∧ eligibleSet (arrivalOnA RAND_MAX) = [⟨faceB⟩, ⟨faceC⟩]
      ∧ (arrivalOnA RAND_MAX).eligible ⟨faceA⟩ = false
      ∧ (afterReceiveInterest PconStrategy.default (MeasurementsEntry.root none)
          (arrivalOnA RAND_MAX)).2.sent.head? = some (faceA, (arrivalOnA RAND_MAX).interest) := by
  refine ⟨le_refl _, by simp [eligibleSet, arrivalOnA, faceA, faceB, faceC],
    by simp [arrivalOnA, faceA], ?_⟩
  norm_num [afterReceiveInterest, afterReceiveInterestOn, getMeasurementsEntryInfo,
    initializeForwMap, scanNextHops, initialPerc, forwardInterest, suppresses,
    requestFromNewFace, collectEligible, chooseLoop, arrivalOnA, faceA, faceB, faceC,
    MtForwardingInfo.setforwPerc, MtForwardingInfo.getforwPerc, storePerc, lookupPerc,
    PconStrategy.default, INT_MAX, RAND_MAX, sent_head_sendAndProbe]

/-- C4. For a request whose FIB entry has no next hop the eligible set is empty, the
request is not suppressed, and the call evaluates `getNextHops().front()` at line 174
on the empty list: it does not reach the return of line 194. -/
theorem afterReceiveInterest_no_route_front_undefined :
    eligibleSet arrivalNoRoute = []
      ∧ suppresses arrivalNoRoute = false
      ∧ (afterReceiveInterest PconStrategy.default (MeasurementsEntry.root none)
          arrivalNoRoute).2.exit = Exit.undefinedBehaviour 174
      ∧ (afterReceiveInterest PconStrategy.default (MeasurementsEntry.root none)
          arrivalNoRoute).2.exit.returnsNormally = false := by
  refine ⟨rfl, rfl, ?_, ?_⟩
  · rw [afterReceiveInterest_snd, forwardInterest_no_nexthops _ _ arrivalNoRoute _ rfl rfl]
  · rw [afterReceiveInterest_snd, forwardInterest_no_nexthops _ _ arrivalNoRoute _ rfl rfl]
    rfl

/-- C5. A request that passes the duplicate guard and has exactly one eligible next
hop is sent on that next hop and the call completes, for every record the selector
may read, every `r`, and hence for every call of `afterReceiveInterest`. -/
theorem afterReceiveInterest_single_eligible (s : PconStrategy) (a : Arrival) (nh : NextHop)
    (hguard : suppresses a = false) (hone : eligibleSet a = [nh]) :
    (∀ (info : MtForwardingInfo) (r : ℚ),
        (forwardInterest s info a r).sent.head? = some (nh.face, a.interest)
          ∧ (forwardInterest s info a r).exit = Exit.completed)
      ∧ (∀ entry : MeasurementsEntry,
        (afterReceiveInterest s entry a).2.sent.head? = some (nh.face, a.interest)
          ∧ (afterReceiveInterest s entry a).2.exit = Exit.completed) := by
  have key : ∀ (info : MtForwardingInfo) (r : ℚ),
      (forwardInterest s info a r).sent.head? = some (nh.face, a.interest)
        ∧ (forwardInterest s info a r).exit = Exit.completed := by
    intro info r
    rw [forwardInterest_single s info a r nh hguard hone]
    exact ⟨sent_head_sendAndProbe s a r nh, exit_sendAndProbe s a r nh⟩
  refine ⟨key, ?_⟩
  intro entry
  rw [afterReceiveInterest_snd]
  exact key _ _

/-- Witness for C5: the only eligible next hop, with share 0, receives the interest. -/
theorem afterReceiveInterest_single_eligible_witness :
    suppresses arrivalFromConsumer = false
      ∧ eligibleSet { arrivalFromConsumer with nexthops := [⟨faceA⟩, ⟨faceC⟩] } = [⟨faceC⟩]
      ∧ (afterReceiveInterest PconStrategy.default (MeasurementsEntry.root (some ⟨[(2, 0)]⟩))
          { arrivalFromConsumer with nexthops := [⟨faceA⟩, ⟨faceC⟩] }).2.sent.head?
          = some (faceC, ⟨"/x", 7⟩) :=
  ⟨rfl, by simp [eligibleSet, arrivalFromConsumer, faceA, faceC],
    ((afterReceiveInterest_single_eligible PconStrategy.default
      { arrivalFromConsumer with nexthops := [⟨faceA⟩, ⟨faceC⟩] } ⟨faceC⟩ rfl
      (by simp [eligibleSet, arrivalFromConsumer, faceA, faceC])).2
      (MeasurementsEntry.root (some ⟨[(2, 0)]⟩))).1⟩

/-- C6. A record seeded by a first request has the share of link 1 lowered from 1 to
49/50 by a congestion-marked response; the next request for the same prefix stores
the initial share 1 again before the selector runs. -/
theorem afterReceiveInterest_resets_lowered_share :
    (afterReceiveInterest PconStrategy.default (MeasurementsEntry.root none)
        arrivalFromConsumer).1 = MeasurementsEntry.root (some ⟨[(1, 1), (2, 0)]⟩)
      ∧ beforeSatisfyInterest PconStrategy.default
          (MeasurementsEntry.root (some ⟨[(1, 1), (2, 0)]⟩)) faceB 1
          = MeasurementsEntry.root (some ⟨[(1, 49 / 50), (2, 0)]⟩)
      ∧ (afterReceiveInterest PconStrategy.default
          (MeasurementsEntry.root (some ⟨[(1, 49 / 50), (2, 0)]⟩)) arrivalFromConsumer).1
          = MeasurementsEntry.root (some ⟨[(1, 1), (2, 0)]⟩) := by
  refine ⟨?_, ?_, ?_⟩
  · norm_num [afterReceiveInterest, afterReceiveInterestOn, getMeasurementsEntryInfo,
      initializeForwMap, scanNextHops, initialPerc, arrivalFromConsumer, faceB, faceC,
      MtForwardingInfo.setforwPerc, storePerc, PconStrategy.default, INT_MAX,
      MeasurementsEntry.setInfo]
  · norm_num [beforeSatisfyInterest, beforeSatisfyInterestOn, getMeasurementsEntryInfo,
      reduceFwPerc, faceB, MtForwardingInfo.setforwPerc, MtForwardingInfo.getforwPerc,
      MtForwardingInfo.getFaceCount, storePerc, lookupPerc, PconStrategy.default,
      MeasurementsEntry.setInfo,
      (by decide : ¬ FaceScope.FACE_SCOPE_NON_LOCAL = FaceScope.FACE_SCOPE_LOCAL),
      (by decide : ¬ "netdev://b" = "contentstore://")]
  · norm_num [afterReceiveInterest, afterReceiveInterestOn, getMeasurementsEntryInfo,
      initializeForwMap, scanNextHops, initialPerc, arrivalFromConsumer, faceB, faceC,
      MtForwardingInfo.setforwPerc, storePerc, PconStrategy.default, INT_MAX,
      MeasurementsEntry.setInfo]

/-- C7. Under the equal-split policy (`INIT_SHORTEST_PATH` false) and with no
local-scope next hop, `initializeForwMap` gives every next hop of a list of `n` next
hops the share `1/n`. -/
theorem initializeForwMap_equal_split (s : PconStrategy) (info : MtForwardingInfo)
    (nexthops : List NextHop) (hne : nexthops ≠ [])
    (hpolicy : s.INIT_SHORTEST_PATH = false)
    (hlocal : ∀ n ∈ nexthops, n.face.scope ≠ FaceScope.FACE_SCOPE_LOCAL) :
    0 < nexthops.length
      ∧ ∀ n ∈ nexthops,
        (initializeForwMap s info nexthops).getforwPerc n.face.id
          = 1 / (nexthops.length : ℚ) := by
  refine ⟨List.length_pos.mpr hne, ?_⟩
  intro n hn
  rw [getforwPerc_initializeForwMap s info nexthops n hn, scanNextHops_snd]
  have hcount : (nexthops.filter
      (fun n => decide (n.face.scope = FaceScope.FACE_SCOPE_LOCAL))).length = 0 := by
    rw [List.length_eq_zero, List.filter_eq_nil_iff]
    intro m hm
    simpa using hlocal m hm
  simp [initialPerc, hcount, hpolicy]

/-- Witness for C7: two next hops get share 1/2 each. -/
theorem initializeForwMap_equal_split_witness :
    ([⟨faceB⟩, ⟨faceC⟩] : List NextHop) ≠ []
      ∧ ({ PconStrategy.default with INIT_SHORTEST_PATH := false }).INIT_SHORTEST_PATH = false
      ∧ (∀ n ∈ ([⟨faceB⟩, ⟨faceC⟩] : List NextHop), n.face.scope ≠ FaceScope.FACE_SCOPE_LOCAL)
      ∧ (initializeForwMap { PconStrategy.default with INIT_SHORTEST_PATH := false }
          ⟨[(1, 49 / 50)]⟩ [⟨faceB⟩, ⟨faceC⟩]).getforwPerc faceC.id
          = 1 / (([⟨faceB⟩, ⟨faceC⟩] : List NextHop).length : ℚ) :=
  ⟨by simp, rfl, by simp [faceB, faceC],
    (initializeForwMap_equal_split { PconStrategy.default with INIT_SHORTEST_PATH := false }
      ⟨[(1, 49 / 50)]⟩ [⟨faceB⟩, ⟨faceC⟩] (by simp) rfl (by simp [faceB, faceC])).2
      ⟨faceC⟩ (by simp)⟩

/-- C8. With `INIT_SHORTEST_PATH` true and two next hops of distinct link-ids above
`INT_MAX`, `lowestId` keeps its initial value `INT_MAX` and every next hop gets share
0, the one with the lowest link-id included: no next hop gets share 1. -/
theorem initializeForwMap_high_ids_all_zero :
    highIdHops.map (fun n => n.face.id) = [2147483648, 2147483649]
      ∧ PconStrategy.default.INIT_SHORTEST_PATH = true
      ∧ (scanNextHops highIdHops).1 = INT_MAX
      ∧ (initializeForwMap PconStrategy.default ⟨[]⟩ highIdHops).getforwPerc 2147483648 = 0
      ∧ (initializeForwMap PconStrategy.default ⟨[]⟩ highIdHops).getforwPerc 2147483649 = 0 := by
  refine ⟨rfl, rfl, by simp [scanNextHops, highIdHops, INT_MAX], ?_, ?_⟩
  · norm_num [initializeForwMap, scanNextHops, initialPerc, highIdHops, INT_MAX,
      PconStrategy.default, MtForwardingInfo.setforwPerc, MtForwardingInfo.getforwPerc,
      storePerc, lookupPerc]
  · norm_num [initializeForwMap, scanNextHops, initialPerc, highIdHops, INT_MAX,
      PconStrategy.default, MtForwardingInfo.setforwPerc, MtForwardingInfo.getforwPerc,
      storePerc, lookupPerc]

/-- C9. A record created for a child prefix inherits share 49/50 for link 1 from the
record of its parent, and the same call of `afterReceiveInterest` then stores the
initial share 1 for link 1, which is a next hop of the child and a link of the
parent. -/
theorem afterReceiveInterest_overwrites_inherited_share :
    (getMeasurementsEntryInfo (MeasurementsEntry.child none
        (MeasurementsEntry.root (some ⟨[(1, 49 / 50), (2, 0)]⟩)))).1.getforwPerc 1 = 49 / 50
      ∧ (afterReceiveInterest PconStrategy.default (MeasurementsEntry.child none
          (MeasurementsEntry.root (some ⟨[(1, 49 / 50), (2, 0)]⟩))) arrivalFromConsumer).1
          = MeasurementsEntry.child (some ⟨[(1, 1), (2, 0)]⟩)
              (MeasurementsEntry.root (some ⟨[(1, 49 / 50), (2, 0)]⟩)) := by
  refine ⟨?_, ?_⟩
  · norm_num [getMeasurementsEntryInfo, MtForwardingInfo.inheritFrom,
      MtForwardingInfo.getforwPerc, lookupPerc]
  · norm_num [afterReceiveInterest, afterReceiveInterestOn, getMeasurementsEntryInfo,
      MtForwardingInfo.inheritFrom,
      initializeForwMap, scanNextHops, initialPerc, arrivalFromConsumer, faceB, faceC,
      MtForwardingInfo.setforwPerc, storePerc, PconStrategy.default, INT_MAX,
      MeasurementsEntry.setInfo]

/-- C10. When the record returned at line 281 holds more than one link, the arrival
face is neither local-scoped nor the content store, and the congestion mark is
non-zero, `beforeSatisfyInterest` leaves the arrival link with the share
`old_share - CHANGE_PER_MARK * old_share`. -/
theorem beforeSatisfyInterest_marked (s : PconStrategy) (entry : MeasurementsEntry)
    (inFace : Face) (congMark : Int)
    (hcount : (getMeasurementsEntryInfo entry).1.getFaceCount > 1)
    (hscope : inFace.scope ≠ FaceScope.FACE_SCOPE_LOCAL)
    (huri : inFace.localUri ≠ "contentstore://")
    (hmark : congMark ≠ 0) :
    ((beforeSatisfyInterest s entry inFace congMark).info.map
        (fun after => after.getforwPerc inFace.id))
      = some ((getMeasurementsEntryInfo entry).1.getforwPerc inFace.id
          - s.CHANGE_PER_MARK * (getMeasurementsEntryInfo entry).1.getforwPerc inFace.id) := by
  unfold beforeSatisfyInterest
  rw [info_setInfo]
  simp [beforeSatisfyInterestOn, hcount, hscope, huri, hmark, reduceFwPerc,
    getforwPerc_setforwPerc_same]

/-- Witness for C10: share 0.7 with `CHANGE_PER_MARK` 0.02 becomes 0.686. -/
theorem beforeSatisfyInterest_marked_witness :
    (getMeasurementsEntryInfo
        (MeasurementsEntry.root (some ⟨[(1, 7 / 10), (2, 3 / 10)]⟩))).1.getFaceCount > 1
      ∧ faceB.scope ≠ FaceScope.FACE_SCOPE_LOCAL
      ∧ faceB.localUri ≠ "contentstore://"
      ∧ (1 : Int) ≠ 0
      ∧ ((beforeSatisfyInterest PconStrategy.default
            (MeasurementsEntry.root (some ⟨[(1, 7 / 10), (2, 3 / 10)]⟩)) faceB 1).info.map
            (fun after => after.getforwPerc faceB.id))
          = some (686 / 1000) := by
  refine ⟨by decide, by decide, by decide, by decide, ?_⟩
  rw [beforeSatisfyInterest_marked PconStrategy.default
    (MeasurementsEntry.root (some ⟨[(1, 7 / 10), (2, 3 / 10)]⟩))
    faceB 1 (by decide) (by decide) (by decide) (by decide)]
  norm_num [getMeasurementsEntryInfo, MtForwardingInfo.getforwPerc, lookupPerc, faceB,
    PconStrategy.default]

/-- C11. `beforeSatisfyInterest` leaves the record of the entry, and so every share in
it, unchanged when the congestion mark is zero, the record holds at most one link, the
arrival face has local scope, or the local URI of the arrival face is
"contentstore://". -/
theorem beforeSatisfyInterest_unchanged (s : PconStrategy) (entry : MeasurementsEntry)
    (inFace : Face) (congMark : Int)
    (h : congMark = 0 ∨ (getMeasurementsEntryInfo entry).1.getFaceCount ≤ 1
      ∨ inFace.scope = FaceScope.FACE_SCOPE_LOCAL ∨ inFace.localUri = "contentstore://") :
    (beforeSatisfyInterest s entry inFace congMark).info
        = some (getMeasurementsEntryInfo entry).1
      ∧ ∀ info : MtForwardingInfo, entry.info = some info →
          beforeSatisfyInterest s entry inFace congMark = entry := by
  unfold beforeSatisfyInterest
  simp only [beforeSatisfyInterestOn_unchanged s _ inFace congMark h]
  refine ⟨info_setInfo _ _, ?_⟩
  intro info hinfo
  rw [getMeasurementsEntryInfo_existing entry info hinfo]
  exact setInfo_of_info entry info hinfo

/-- Witness for C11: an unmarked response leaves the record with shares 0.7 and 0.3
as it is. -/
theorem beforeSatisfyInterest_unchanged_witness :
    ((0 : Int) = 0
        ∨ (getMeasurementsEntryInfo
            (MeasurementsEntry.root (some ⟨[(1, 7 / 10), (2, 3 / 10)]⟩))).1.getFaceCount ≤ 1
        ∨ faceB.scope = FaceScope.FACE_SCOPE_LOCAL ∨ faceB.localUri = "contentstore://")
      ∧ beforeSatisfyInterest PconStrategy.default
          (MeasurementsEntry.root (some ⟨[(1, 7 / 10), (2, 3 / 10)]⟩)) faceB 0
          = MeasurementsEntry.root (some ⟨[(1, 7 / 10), (2, 3 / 10)]⟩) :=
  ⟨Or.inl rfl,
    (beforeSatisfyInterest_unchanged PconStrategy.default
      (MeasurementsEntry.root (some ⟨[(1, 7 / 10), (2, 3 / 10)]⟩)) faceB 0 (Or.inl rfl)).2
      ⟨[(1, 7 / 10), (2, 3 / 10)]⟩ rfl⟩

/-- C12. A request without a pending out-record is not suppressed by the duplicate
guard, but when its FIB entry has no next hop it does not reach the eligibility filter
of lines 179-189 and the selector: the call ends at `getNextHops().front()` of line
174, on the empty list. -/
theorem afterReceiveInterest_no_route_misses_filter :
    ¬ (arrivalNoRoute.pitEntry.hasPendingOutRecords = true
        ∧ ∃ rec ∈ arrivalNoRoute.pitEntry.inRecords, ¬ (rec.lastRenewed < arrivalNoRoute.now))
      ∧ suppresses arrivalNoRoute = false
      ∧ arrivalNoRoute.nexthops = []
      ∧ (afterReceiveInterest PconStrategy.default (MeasurementsEntry.root none)
          arrivalNoRoute).2.exit ≠ Exit.suppressed
      ∧ (afterReceiveInterest PconStrategy.default (MeasurementsEntry.root none)
          arrivalNoRoute).2.exit ≠ Exit.blocked
      ∧ (afterReceiveInterest PconStrategy.default (MeasurementsEntry.root none)
          arrivalNoRoute).2.exit ≠ Exit.completed
      ∧ (afterReceiveInterest PconStrategy.default (MeasurementsEntry.root none)
          arrivalNoRoute).2
          = { exit := Exit.undefinedBehaviour 174, sent := [],
              strategy := PconStrategy.default } := by
  have hrun : (afterReceiveInterest PconStrategy.default (MeasurementsEntry.root none)
      arrivalNoRoute).2
      = { exit := Exit.undefinedBehaviour 174, sent := [],
          strategy := PconStrategy.default } := by
    rw [afterReceiveInterest_snd]
    exact forwardInterest_no_nexthops _ _ arrivalNoRoute _ rfl rfl
  refine ⟨by simp [arrivalNoRoute], rfl, rfl, ?_, ?_, ?_, hrun⟩
  · rw [hrun]; simp
  · rw [hrun]; simp
  · rw [hrun]; simp

/-- C13. A same-face retransmission (pending out-record, the in-record last renewed
before now) has `wantNewNonce` set, passes the guard and is forwarded on face 1 with
the interest that arrived: the nonce sent is the nonce received. -/
theorem afterReceiveInterest_retransmission_keeps_nonce :
    arrivalRetransmission.pitEntry.hasPendingOutRecords = true
      ∧ (∀ rec ∈ arrivalRetransmission.pitEntry.inRecords,
          rec.lastRenewed < arrivalRetransmission.now)
      ∧ wantNewNonce arrivalRetransmission = true
      ∧ (afterReceiveInterest PconStrategy.default (MeasurementsEntry.root none)
          arrivalRetransmission).2.sent
          = [(faceB, arrivalRetransmission.interest)]
      ∧ ((afterReceiveInterest PconStrategy.default (MeasurementsEntry.root none)
          arrivalRetransmission).2.sent.map (fun p => p.2.nonce))
          = [arrivalRetransmission.interest.nonce] := by
  have hsent : (afterReceiveInterest PconStrategy.default (MeasurementsEntry.root none)
      arrivalRetransmission).2.sent = [(faceB, arrivalRetransmission.interest)] := by
    norm_num [afterReceiveInterest, afterReceiveInterestOn, getMeasurementsEntryInfo,
      initializeForwMap, scanNextHops, initialPerc, forwardInterest, suppresses,
      requestFromNewFace, collectEligible, chooseLoop, sendAndProbe, arrivalRetransmission,
      faceA, faceB, faceC, MtForwardingInfo.setforwPerc, MtForwardingInfo.getforwPerc,
      storePerc, lookupPerc, PconStrategy.default, INT_MAX, RAND_MAX, TIME_BETWEEN_FW_WRITE]
  refine ⟨rfl, by simp [arrivalRetransmission], ?_, hsent, ?_⟩
  · simp [wantNewNonce, requestFromNewFace, arrivalRetransmission]
  · rw [hsent]; rfl

/-- C14, the claim as stated fails. A request arrives on face 3, the eligible next
hops are faces 1 and 2, the interest is sent on face 1 and probing fires: the probes
go to face 3, the arrival face, which is not eligible, and to face 2. -/
theorem afterReceiveInterest_probes_arrival_face :
    ((arrivalOnA 5).rand : ℚ) / (RAND_MAX : ℚ) ≤ PconStrategy.default.PROBING_PERCENTAGE
      ∧ (arrivalOnA 5).inFace = faceA
      ∧ (arrivalOnA 5).eligible ⟨faceA⟩ = false
      ∧ eligibleSet (arrivalOnA 5) = [⟨faceB⟩, ⟨faceC⟩]
      ∧ (afterReceiveInterest PconStrategy.default (MeasurementsEntry.root none)
          (arrivalOnA 5)).2.sent
          = [(faceB, (arrivalOnA 5).interest), (faceA, ⟨"", 0⟩), (faceC, ⟨"", 1⟩)] := by
  refine ⟨?_, rfl, by simp [arrivalOnA, faceA],
    by simp [eligibleSet, arrivalOnA, faceA, faceB, faceC], ?_⟩
  · norm_num [arrivalOnA, RAND_MAX, PconStrategy.default]
  · norm_num [afterReceiveInterest, afterReceiveInterestOn, getMeasurementsEntryInfo,
      initializeForwMap, scanNextHops, initialPerc, forwardInterest, suppresses,
      requestFromNewFace, collectEligible, chooseLoop, sendAndProbe, probeInterests,
      arrivalOnA, faceA, faceB, faceC, MtForwardingInfo.setforwPerc,
      MtForwardingInfo.getforwPerc, storePerc, lookupPerc, PconStrategy.default, INT_MAX,
      RAND_MAX, TIME_BETWEEN_FW_WRITE, NONCE_RANGE]

/-- C14, amended. Whenever the request is forwarded and probing fires
(`r <= PROBING_PERCENTAGE`), the probes go, in next-hop list order, to exactly the
next hops of the whole next-hop list whose link-id differs from that of the next hop
used for the main forward; the eligibility predicate is not consulted. -/
theorem forwardInterest_probes_other_nexthops (s : PconStrategy) (info : MtForwardingInfo)
    (a : Arrival) (r : ℚ)
    (hforwarded : (forwardInterest s info a r).exit = Exit.completed)
    (hfires : r ≤ s.PROBING_PERCENTAGE) :
    ∃ outNH : NextHop,
      (forwardInterest s info a r).sent.head? = some (outNH.face, a.interest)
        ∧ (forwardInterest s info a r).sent.tail.map Prod.fst
            = (otherNextHops outNH.face.id a.nexthops).map (fun n => n.face) := by
  obtain ⟨s1, nh, hconf, _, heq⟩ := forwardInterest_completed s info a r hforwarded
  refine ⟨nh, by rw [heq]; exact sent_head_sendAndProbe s1 a r nh, ?_⟩
  have hfires1 : r ≤ s1.PROBING_PERCENTAGE := by
    rw [hconf.2.2]; exact hfires
  rw [heq]
  simp only [sendAndProbe, hfires1, if_true, List.tail_cons]
  exact probeInterests_faces _ _ _

/-- Witness for C14 as amended: with the interest sent on face 1, the probes go to the
other two next hops, faces 3 and 2. -/
theorem forwardInterest_probes_other_nexthops_witness :
    (forwardInterest PconStrategy.default ⟨[(3, 0), (1, 1), (2, 0)]⟩ (arrivalOnA 5)
        (1 / 2000)).exit = Exit.completed
      ∧ (1 / 2000 : ℚ) ≤ PconStrategy.default.PROBING_PERCENTAGE
      ∧ ∃ outNH : NextHop,
          (forwardInterest PconStrategy.default ⟨[(3, 0), (1, 1), (2, 0)]⟩ (arrivalOnA 5)
              (1 / 2000)).sent.head? = some (outNH.face, (arrivalOnA 5).interest)
            ∧ (forwardInterest PconStrategy.default ⟨[(3, 0), (1, 1), (2, 0)]⟩
                (arrivalOnA 5) (1 / 2000)).sent.tail.map Prod.fst
                = (otherNextHops outNH.face.id (arrivalOnA 5).nexthops).map
                    (fun n => n.face) := by
  have hexit : (forwardInterest PconStrategy.default ⟨[(3, 0), (1, 1), (2, 0)]⟩
      (arrivalOnA 5) (1 / 2000)).exit = Exit.completed := by
    norm_num [forwardInterest, suppresses, requestFromNewFace, collectEligible, chooseLoop,
      arrivalOnA, faceA, faceB, faceC, MtForwardingInfo.getforwPerc, lookupPerc,
      exit_sendAndProbe]
  have hfires : (1 / 2000 : ℚ) ≤ PconStrategy.default.PROBING_PERCENTAGE := by
    norm_num [PconStrategy.default]
  exact ⟨hexit, hfires,
    forwardInterest_probes_other_nexthops PconStrategy.default ⟨[(3, 0), (1, 1), (2, 0)]⟩
      (arrivalOnA 5) (1 / 2000) hexit hfires⟩

/-- C15. For a request that passes the duplicate guard with at least two eligible next
hops, `afterReceiveInterest` ends in a failed assertion exactly when the sum of the
eligible next hops' shares, as the selector reads them, is not strictly positive; it
is then the assertion of line 206, no interest and no probe has been sent, and no
default link is used. -/
theorem afterReceiveInterest_fault_iff (s : PconStrategy) (entry : MeasurementsEntry)
    (a : Arrival) (info : MtForwardingInfo)
    (hinfo : (afterReceiveInterest s entry a).1.info = some info)
    (hguard : suppresses a = false) (htwo : 2 ≤ (eligibleSet a).length) :
    ((∃ line : Nat, (afterReceiveInterest s entry a).2.exit = Exit.assertFailed line)
        ↔ ¬ (0 < shareSum info (eligibleSet a)))
      ∧ (¬ (0 < shareSum info (eligibleSet a)) →
          (afterReceiveInterest s entry a).2.sent = []
            ∧ (afterReceiveInterest s entry a).2.exit = Exit.assertFailed 206)
      ∧ (0 < shareSum info (eligibleSet a) →
          (afterReceiveInterest s entry a).2.exit = Exit.completed) := by
  have hrec := afterReceiveInterest_record s entry a info hinfo
  subst hrec
  simp only [afterReceiveInterest_snd]
  exact forwardInterest_fault_iff s _ a _ hguard htwo
    (share_initializeForwMap_nonneg s _ a)

/-- Witness for C15: with the lowest-id next hop as arrival face the eligible shares
sum to 0 and the call ends at the assertion of line 206 with nothing sent. -/
theorem afterReceiveInterest_fault_iff_witness :
    (afterReceiveInterest PconStrategy.default (MeasurementsEntry.root none)
        arrivalOnLowest).1.info = some ⟨[(1, 1), (2, 0), (3, 0)]⟩
      ∧ suppresses arrivalOnLowest = false
      ∧ 2 ≤ (eligibleSet arrivalOnLowest).length
      ∧ ¬ (0 < shareSum ⟨[(1, 1), (2, 0), (3, 0)]⟩ (eligibleSet arrivalOnLowest))
      ∧ (afterReceiveInterest PconStrategy.default (MeasurementsEntry.root none)
          arrivalOnLowest).2.sent = []
      ∧ (afterReceiveInterest PconStrategy.default (MeasurementsEntry.root none)
          arrivalOnLowest).2.exit = Exit.assertFailed 206 := by
  have hinfo : (afterReceiveInterest PconStrategy.default (MeasurementsEntry.root none)
      arrivalOnLowest).1.info = some ⟨[(1, 1), (2, 0), (3, 0)]⟩ := by
    norm_num [afterReceiveInterest, afterReceiveInterestOn, getMeasurementsEntryInfo,
      initializeForwMap, scanNextHops, initialPerc, arrivalOnLowest, faceA, faceB, faceC,
      MtForwardingInfo.setforwPerc, storePerc, PconStrategy.default, INT_MAX,
      MeasurementsEntry.setInfo, MeasurementsEntry.info]
  have hel : eligibleSet arrivalOnLowest = [⟨faceC⟩, ⟨faceA⟩] := by
    simp [eligibleSet, arrivalOnLowest, faceA, faceB, faceC]
  have hzero : ¬ (0 < shareSum ⟨[(1, 1), (2, 0), (3, 0)]⟩ (eligibleSet arrivalOnLowest)) := by
    rw [hel]
    norm_num [shareSum, share, MtForwardingInfo.getforwPerc, lookupPerc, faceA, faceC]
  have htwo : 2 ≤ (eligibleSet arrivalOnLowest).length := by simp [hel]
  have hthm := (afterReceiveInterest_fault_iff PconStrategy.default
    (MeasurementsEntry.root none) arrivalOnLowest ⟨[(1, 1), (2, 0), (3, 0)]⟩ hinfo rfl
    htwo).2.1 hzero
  exact ⟨hinfo, rfl, htwo, hzero, hthm.1, hthm.2⟩

/-- C16. With `CHANGE_PER_MARK` in `[0,1]`, every share of a record seeded by
`initializeForwMap` lies in `[0,1]` after any finite sequence of request arrivals and
response arrivals, and a response, congestion-marked or not, leaves the share of its
arrival link between 0 and the value it had. -/
theorem shares_stay_in_unit_interval (s : PconStrategy) (fresh : MtForwardingInfo)
    (nexthops : List NextHop) (events : List Event)
    (hc0 : 0 ≤ s.CHANGE_PER_MARK) (hc1 : s.CHANGE_PER_MARK ≤ 1)
    (hfresh : sharesInUnitInterval fresh) :
    sharesInUnitInterval (handleEvents s (initializeForwMap s fresh nexthops) events).2
      ∧ ∀ (info : MtForwardingInfo) (inFace : Face) (congMark : Int),
          sharesInUnitInterval info →
            0 ≤ (beforeSatisfyInterestOn s info inFace congMark).getforwPerc inFace.id
              ∧ (beforeSatisfyInterestOn s info inFace congMark).getforwPerc inFace.id
                  ≤ info.getforwPerc inFace.id := by
  refine ⟨?_, ?_⟩
  · exact sharesInUnitInterval_handleEvents events s _ hc0 hc1
      (sharesInUnitInterval_initializeForwMap s fresh nexthops hfresh)
  · intro info inFace congMark h
    exact (beforeSatisfyInterestOn_unit s info inFace congMark hc0 hc1 h).2

/-- Witness for C16: a new record for next hops 1 and 2, a marked response on face 1,
then a request. -/
theorem shares_stay_in_unit_interval_witness :
    0 ≤ PconStrategy.default.CHANGE_PER_MARK
      ∧ PconStrategy.default.CHANGE_PER_MARK ≤ 1
      ∧ sharesInUnitInterval ⟨[]⟩
      ∧ sharesInUnitInterval
          (handleEvents PconStrategy.default
            (initializeForwMap PconStrategy.default ⟨[]⟩ [⟨faceB⟩, ⟨faceC⟩])
            [Event.response faceB 1, Event.request arrivalFromConsumer]).2 := by
  have hc0 : 0 ≤ PconStrategy.default.CHANGE_PER_MARK := by
    norm_num [PconStrategy.default]
  have hc1 : PconStrategy.default.CHANGE_PER_MARK ≤ 1 := by
    norm_num [PconStrategy.default]
  have hfresh : sharesInUnitInterval ⟨[]⟩ := by
    intro kv hkv
    simp at hkv
  exact ⟨hc0, hc1, hfresh,
    (shares_stay_in_unit_interval PconStrategy.default ⟨[]⟩ [⟨faceB⟩, ⟨faceC⟩]
      [Event.response faceB 1, Event.request arrivalFromConsumer] hc0 hc1 hfresh).1⟩

/-- C17. In the multi-link branch, for eligible next hops with shares that are not
negative and `percSum > 0`, every running value of the sum of `share/percSum` lies in
`[0,1]` in exact arithmetic, and neither assertion of the loop (lines 218 and 219)
fails, for any `r`. -/
theorem chooseLoop_running_sum_bounds (info : MtForwardingInfo) (l : List NextHop)
    (hnonneg : ∀ x ∈ l, 0 ≤ share info x)
    (hsum : 0 < shareSum info l) :
    (∀ j : Nat, 0 ≤ runningSum info (shareSum info l) l j
        ∧ runningSum info (shareSum info l) l j ≤ 1)
      ∧ ∀ (r : ℚ) (line : Nat),
          chooseLoop info (shareSum info l) r 0 0 l ≠ LoopExit.assertFailed line := by
  obtain ⟨hterm, htotal⟩ := normalised_terms info l hnonneg hsum
  refine ⟨?_, ?_⟩
  · intro j
    refine ⟨runningSum_nonneg info _ l hterm j, ?_⟩
    have := runningSum_le_sum info _ l hterm j
    rw [htotal] at this
    exact this
  · intro r line
    apply chooseLoop_no_assert info _ r l 0 0 hterm (le_refl _)
    rw [htotal]; norm_num

/-- Witness for C17: shares 0.7 and 0.3 give the running sums 0, 0.7 and 1. -/
theorem chooseLoop_running_sum_bounds_witness :
    (∀ x ∈ ([⟨faceB⟩, ⟨faceC⟩] : List NextHop),
        0 ≤ share ⟨[(1, 7 / 10), (2, 3 / 10)]⟩ x)
      ∧ 0 < shareSum ⟨[(1, 7 / 10), (2, 3 / 10)]⟩ [⟨faceB⟩, ⟨faceC⟩]
      ∧ runningSum ⟨[(1, 7 / 10), (2, 3 / 10)]⟩
          (shareSum ⟨[(1, 7 / 10), (2, 3 / 10)]⟩ [⟨faceB⟩, ⟨faceC⟩])
          [⟨faceB⟩, ⟨faceC⟩] 2 ≤ 1
      ∧ chooseLoop ⟨[(1, 7 / 10), (2, 3 / 10)]⟩
          (shareSum ⟨[(1, 7 / 10), (2, 3 / 10)]⟩ [⟨faceB⟩, ⟨faceC⟩]) 1 0 0
          [⟨faceB⟩, ⟨faceC⟩] ≠ LoopExit.assertFailed 219 := by
  have hnn : ∀ x ∈ ([⟨faceB⟩, ⟨faceC⟩] : List NextHop),
      0 ≤ share ⟨[(1, 7 / 10), (2, 3 / 10)]⟩ x := by
    intro x hx
    simp only [List.mem_cons, List.mem_singleton, List.not_mem_nil, or_false] at hx
    rcases hx with h | h <;> subst h <;>
      norm_num [share, MtForwardingInfo.getforwPerc, lookupPerc, faceB, faceC]
  have hsum : 0 < shareSum ⟨[(1, 7 / 10), (2, 3 / 10)]⟩ [⟨faceB⟩, ⟨faceC⟩] := by
    norm_num [shareSum, share, MtForwardingInfo.getforwPerc, lookupPerc, faceB, faceC]
  have hthm := chooseLoop_running_sum_bounds ⟨[(1, 7 / 10), (2, 3 / 10)]⟩
    [⟨faceB⟩, ⟨faceC⟩] hnn hsum
  exact ⟨hnn, hsum, (hthm.1 2).2, hthm.2 1 219⟩

/-- C18. A call of `probeInterests` with counter value `m` sends one probe per next
hop whose link-id differs from `outFaceId`, in next-hop list order, with the nonces
`m, m+1, ..., m+k-1`, and leaves the counter at `m+k`; over this call and any later
calls of the same strategy object the nonces are strictly increasing and pairwise
distinct, as long as the counter does not wrap. -/
theorem probeInterests_nonces (m : Nat) (outFaceId : FaceId) (nexthops : List NextHop)
    (later : List (FaceId × List NextHop))
    (hnowrap : m + probeCount ((outFaceId, nexthops) :: later) < NONCE_RANGE) :
    (probeInterests m outFaceId nexthops).1.length = (otherNextHops outFaceId nexthops).length
      ∧ (probeInterests m outFaceId nexthops).1.map Prod.fst
          = (otherNextHops outFaceId nexthops).map (fun n => n.face)
      ∧ noncesOf (probeInterests m outFaceId nexthops).1
          = List.range' m (otherNextHops outFaceId nexthops).length
      ∧ (probeInterests m outFaceId nexthops).2 = m + (otherNextHops outFaceId nexthops).length
      ∧ noncesOf (probeCalls m ((outFaceId, nexthops) :: later)).1
          = List.range' m (probeCount ((outFaceId, nexthops) :: later))
      ∧ (noncesOf (probeCalls m ((outFaceId, nexthops) :: later)).1).Pairwise (fun x y => x < y)
      ∧ (noncesOf (probeCalls m ((outFaceId, nexthops) :: later)).1).Nodup := by
  have hcount : probeCount ((outFaceId, nexthops) :: later)
      = (otherNextHops outFaceId nexthops).length + probeCount later := by
    simp [probeCount]
  have hone : m + (otherNextHops outFaceId nexthops).length < NONCE_RANGE := by
    rw [hcount] at hnowrap; omega
  have heq := probeInterests_eq m outFaceId nexthops hone
  have hseq := (probeCalls_nonces ((outFaceId, nexthops) :: later) m hnowrap).1
  refine ⟨?_, probeInterests_faces m outFaceId nexthops, ?_, ?_, hseq, ?_, ?_⟩
  · have := congrArg List.length (probeInterests_faces m outFaceId nexthops)
    simpa using this
  · rw [heq]; exact noncesOf_zipWith_range _ m
  · rw [heq]
  · rw [hseq]; exact List.pairwise_lt_range' m _ 1 (by decide)
  · rw [hseq]; exact List.nodup_range' m _ 1 (by decide)

/-- Witness for C18: from counter 5, probing next hops 3, 1, 2 around face 1 sends two
probes with nonces 5 and 6 and leaves the counter at 7. -/
theorem probeInterests_nonces_witness :
    5 + probeCount [((1 : FaceId), [(⟨faceA⟩ : NextHop), ⟨faceB⟩, ⟨faceC⟩])] < NONCE_RANGE
      ∧ noncesOf (probeInterests 5 1 [⟨faceA⟩, ⟨faceB⟩, ⟨faceC⟩]).1
          = List.range' 5 (otherNextHops 1 [⟨faceA⟩, ⟨faceB⟩, ⟨faceC⟩]).length
      ∧ (probeInterests 5 1 [⟨faceA⟩, ⟨faceB⟩, ⟨faceC⟩]).2
          = 5 + (otherNextHops 1 [⟨faceA⟩, ⟨faceB⟩, ⟨faceC⟩]).length
      ∧ (otherNextHops 1 [⟨faceA⟩, ⟨faceB⟩, ⟨faceC⟩]).length = 2 := by
  have h : 5 + probeCount [((1 : FaceId), [(⟨faceA⟩ : NextHop), ⟨faceB⟩, ⟨faceC⟩])]
      < NONCE_RANGE := by
    simp [probeCount, otherNextHops, faceA, faceB, faceC, NONCE_RANGE]
  have hthm := probeInterests_nonces 5 1 [⟨faceA⟩, ⟨faceB⟩, ⟨faceC⟩] [] h
  exact ⟨h, hthm.2.2.1, hthm.2.2.2.1, by simp [otherNextHops, faceA, faceB, faceC]⟩

/-- C19, the claim as stated fails. With `INIT_SHORTEST_PATH` true and a request that
arrives on face 1, the lowest link-id of the next hops 1, 2, 3 (distinct), the two
eligible next hops hold share 0 when the selector reads them: `percSum` is 0 and the
assertion of line 206 fails. -/
theorem afterReceiveInterest_percSum_zero :
    suppresses arrivalOnLowest = false
      ∧ eligibleSet arrivalOnLowest = [⟨faceC⟩, ⟨faceA⟩]
      ∧ (arrivalOnLowest.nexthops.map (fun n => n.face.id)) = [1, 2, 3]
      ∧ (afterReceiveInterest PconStrategy.default (MeasurementsEntry.root none)
          arrivalOnLowest).1.info = some ⟨[(1, 1), (2, 0), (3, 0)]⟩
      ∧ shareSum ⟨[(1, 1), (2, 0), (3, 0)]⟩ (eligibleSet arrivalOnLowest) = 0
      ∧ (afterReceiveInterest PconStrategy.default (MeasurementsEntry.root none)
          arrivalOnLowest).2.exit = Exit.assertFailed 206 := by
  have hel : eligibleSet arrivalOnLowest = [⟨faceC⟩, ⟨faceA⟩] := by
    simp [eligibleSet, arrivalOnLowest, faceA, faceB, faceC]
  refine ⟨rfl, hel, by simp [arrivalOnLowest, faceA, faceB, faceC], ?_, ?_, ?_⟩
  · norm_num [afterReceiveInterest, afterReceiveInterestOn, getMeasurementsEntryInfo,
      initializeForwMap, scanNextHops, initialPerc, arrivalOnLowest, faceA, faceB, faceC,
      MtForwardingInfo.setforwPerc, storePerc, PconStrategy.default, INT_MAX,
      MeasurementsEntry.setInfo, MeasurementsEntry.info]
  · rw [hel]
    norm_num [shareSum, share, MtForwardingInfo.getforwPerc, lookupPerc, faceA, faceC]
  · norm_num [afterReceiveInterest, afterReceiveInterestOn, getMeasurementsEntryInfo,
      initializeForwMap, scanNextHops, initialPerc, forwardInterest, suppresses,
      requestFromNewFace, collectEligible, arrivalOnLowest, faceA, faceB, faceC,
      MtForwardingInfo.setforwPerc, MtForwardingInfo.getforwPerc, storePerc, lookupPerc,
      PconStrategy.default, INT_MAX]

/-- C19, amended. For a request that passes the duplicate guard with at least two
eligible next hops, the sum of the eligible next hops' shares, as the selector reads
them in that call, is strictly positive and no assertion fails, provided that, when
`INIT_SHORTEST_PATH` is true or a next hop has local scope, a next hop with the lowest
link-id is eligible and that link-id is at most `INT_MAX`. -/
theorem afterReceiveInterest_percSum_pos (s : PconStrategy) (entry : MeasurementsEntry)
    (a : Arrival) (info : MtForwardingInfo)
    (hinfo : (afterReceiveInterest s entry a).1.info = some info)
    (hguard : suppresses a = false) (htwo : 2 ≤ (eligibleSet a).length)
    (hlowest : (s.INIT_SHORTEST_PATH = true
        ∨ ∃ n ∈ a.nexthops, n.face.scope = FaceScope.FACE_SCOPE_LOCAL) →
      ∃ m ∈ eligibleSet a, m.face.id ≤ INT_MAX ∧ ∀ n ∈ a.nexthops, m.face.id ≤ n.face.id) :
    0 < shareSum info (eligibleSet a)
      ∧ (afterReceiveInterest s entry a).2.exit = Exit.completed := by
  have hrec := afterReceiveInterest_record s entry a info hinfo
  subst hrec
  have hpos : 0 < shareSum (initializeForwMap s (getMeasurementsEntryInfo entry).1 a.nexthops)
      (eligibleSet a) := by
    by_cases hpolicy : s.INIT_SHORTEST_PATH = true
        ∨ ∃ n ∈ a.nexthops, n.face.scope = FaceScope.FACE_SCOPE_LOCAL
    · obtain ⟨m, hm, hrange, hmin⟩ := hlowest hpolicy
      exact (shareSum_shortest_path_pos s _ a m hpolicy hm hrange hmin).2.2
    · have hfalse : s.INIT_SHORTEST_PATH = false := by
        cases hb : s.INIT_SHORTEST_PATH with
        | true => exact absurd (Or.inl hb) hpolicy
        | false => rfl
      have hlocal : ∀ n ∈ a.nexthops, n.face.scope ≠ FaceScope.FACE_SCOPE_LOCAL := by
        intro n hn hloc
        exact hpolicy (Or.inr ⟨n, hn, hloc⟩)
      have hne : eligibleSet a ≠ [] := by
        intro h
        rw [h] at htwo
        simp at htwo
      exact shareSum_equal_split_pos s _ a hfalse hlocal hne
  refine ⟨hpos, ?_⟩
  rw [afterReceiveInterest_snd]
  exact (forwardInterest_fault_iff s _ a _ hguard htwo
    (share_initializeForwMap_nonneg s _ a)).2.2 hpos

/-- Witness for C19 as amended: the lowest-id next hop, face 1, is eligible and the
eligible shares sum to 1. -/
theorem afterReceiveInterest_percSum_pos_witness :
    (afterReceiveInterest PconStrategy.default (MeasurementsEntry.root none)
        arrivalFromConsumer).1.info = some ⟨[(1, 1), (2, 0)]⟩
      ∧ suppresses arrivalFromConsumer = false
      ∧ 2 ≤ (eligibleSet arrivalFromConsumer).length
      ∧ ((PconStrategy.default.INIT_SHORTEST_PATH = true
            ∨ ∃ n ∈ arrivalFromConsumer.nexthops, n.face.scope = FaceScope.FACE_SCOPE_LOCAL) →
          ∃ m ∈ eligibleSet arrivalFromConsumer, m.face.id ≤ INT_MAX
            ∧ ∀ n ∈ arrivalFromConsumer.nexthops, m.face.id ≤ n.face.id)
      ∧ 0 < shareSum ⟨[(1, 1), (2, 0)]⟩ (eligibleSet arrivalFromConsumer)
      ∧ (afterReceiveInterest PconStrategy.default (MeasurementsEntry.root none)
          arrivalFromConsumer).2.exit = Exit.completed := by
  have hinfo : (afterReceiveInterest PconStrategy.default (MeasurementsEntry.root none)
      arrivalFromConsumer).1.info = some ⟨[(1, 1), (2, 0)]⟩ := by
    norm_num [afterReceiveInterest, afterReceiveInterestOn, getMeasurementsEntryInfo,
      initializeForwMap, scanNextHops, initialPerc, arrivalFromConsumer, faceB, faceC,
      MtForwardingInfo.setforwPerc, storePerc, PconStrategy.default, INT_MAX,
      MeasurementsEntry.setInfo, MeasurementsEntry.info]
  have hel : eligibleSet arrivalFromConsumer = [⟨faceB⟩, ⟨faceC⟩] := by
    simp [eligibleSet, arrivalFromConsumer, faceB, faceC]
  have htwo : 2 ≤ (eligibleSet arrivalFromConsumer).length := by simp [hel]
  have hlowest : (PconStrategy.default.INIT_SHORTEST_PATH = true
        ∨ ∃ n ∈ arrivalFromConsumer.nexthops, n.face.scope = FaceScope.FACE_SCOPE_LOCAL) →
      ∃ m ∈ eligibleSet arrivalFromConsumer, m.face.id ≤ INT_MAX
        ∧ ∀ n ∈ arrivalFromConsumer.nexthops, m.face.id ≤ n.face.id := by
    intro _
    refine ⟨⟨faceB⟩, by simp [hel], by simp [faceB, INT_MAX], ?_⟩
    intro n hn
    simp only [arrivalFromConsumer, List.mem_cons, List.mem_singleton, List.not_mem_nil,
      or_false] at hn
    rcases hn with h | h <;> subst h <;> simp [faceB, faceC]
  have hthm := afterReceiveInterest_percSum_pos PconStrategy.default
    (MeasurementsEntry.root none) arrivalFromConsumer ⟨[(1, 1), (2, 0)]⟩ hinfo rfl htwo
    hlowest
  exact ⟨hinfo, rfl, htwo, hlowest, hthm.1, hthm.2⟩

/-- C20. With `INIT_SHORTEST_PATH` true and two eligible next hops whose link-ids lie
above `INT_MAX`, the lowest-id next hop among them, every share the selector reads is
0: the call ends at the assertion of line 206 and the request is not forwarded. -/
theorem afterReceiveInterest_high_ids_not_forwarded :
    PconStrategy.default.INIT_SHORTEST_PATH = true
      ∧ suppresses arrivalHighIds = false
      ∧ eligibleSet arrivalHighIds = highIdHops
      ∧ arrivalHighIds.rand < RAND_MAX
      ∧ (afterReceiveInterest PconStrategy.default (MeasurementsEntry.root none)
          arrivalHighIds).1.info = some ⟨[(2147483648, 0), (2147483649, 0)]⟩
      ∧ (afterReceiveInterest PconStrategy.default (MeasurementsEntry.root none)
          arrivalHighIds).2.exit = Exit.assertFailed 206
      ∧ (afterReceiveInterest PconStrategy.default (MeasurementsEntry.root none)
          arrivalHighIds).2.sent = [] := by
  refine ⟨rfl, rfl, by simp [eligibleSet, arrivalHighIds, highIdHops],
    by simp [arrivalHighIds, RAND_MAX], ?_, ?_, ?_⟩
  · norm_num [afterReceiveInterest, afterReceiveInterestOn, getMeasurementsEntryInfo,
      initializeForwMap, scanNextHops, initialPerc, arrivalHighIds, highIdHops,
      MtForwardingInfo.setforwPerc, storePerc, PconStrategy.default, INT_MAX,
      MeasurementsEntry.setInfo, MeasurementsEntry.info]
  · norm_num [afterReceiveInterest, afterReceiveInterestOn, getMeasurementsEntryInfo,
      initializeForwMap, scanNextHops, initialPerc, forwardInterest, suppresses,
      requestFromNewFace, collectEligible, arrivalHighIds, highIdHops,
      MtForwardingInfo.setforwPerc, MtForwardingInfo.getforwPerc, storePerc, lookupPerc,
      PconStrategy.default, INT_MAX]
  · norm_num [afterReceiveInterest, afterReceiveInterestOn, getMeasurementsEntryInfo,
      initializeForwMap, scanNextHops, initialPerc, forwardInterest, suppresses,
      requestFromNewFace, collectEligible, arrivalHighIds, highIdHops,
      MtForwardingInfo.setforwPerc, MtForwardingInfo.getforwPerc, storePerc, lookupPerc,
      PconStrategy.default, INT_MAX]

end Pcon
